import Mathlib

/-!
# calc_go: the expression engine of `pkg/calculation/calculation.go`

A shallow embedding of `Calc`, `tokenize`, `evaluate`, `precedence` and
`applyOperation`, followed by theorems about them.

Conventions of the embedding.

* A Go string is the sequence of runes that `for _, char := range expression`
  yields, a `List Char`. A token is such a sequence as well.
* A Go `error` is represented by its message text; a run-time panic (an index
  out of range) is a separate outcome, see `Fault`.
* The two stacks of `evaluate` are lists whose head is the top of the stack
  (the last element of the Go slice).
* `float64` is modelled exactly: a finite double is a whole number of units of
  `2^(-1074)`, every operation computes the exact result and rounds it to the
  nearest double, ties to even.
* `unicode.IsSpace` is written out. `unicode.IsDigit` and `unicode.IsLetter`
  follow the Go library: fixed answers on Latin-1, and above it the range
  tables of the Unicode version in use, which are a parameter
  (`UnicodeTables`).
-/

namespace CalcGo

/-! ## Runes -/

/-- White space as `unicode.IsSpace` defines it: in Latin-1 the runes
`\t \n \v \f \r`, space, U+0085 and U+00A0; above Latin-1 the runes with the
Unicode property White_Space. -/
def isSpace (c : Char) : Bool :=
  let n := c.toNat
  n == 0x09 || n == 0x0A || n == 0x0B || n == 0x0C || n == 0x0D || n == 0x20
    || n == 0x85 || n == 0xA0 || n == 0x1680 || (0x2000 ≤ n && n ≤ 0x200A)
    || n == 0x2028 || n == 0x2029 || n == 0x202F || n == 0x205F || n == 0x3000

/-- Letters of Latin-1, the entries of the `properties` array of package
`unicode` that carry a letter bit: `A-Z`, `a-z`, U+00AA, U+00B5, U+00BA,
U+00C0-U+00D6, U+00D8-U+00F6, U+00F8-U+00FF. -/
def latin1Letter (n : Nat) : Bool :=
  (0x41 ≤ n && n ≤ 0x5A) || (0x61 ≤ n && n ≤ 0x7A) || n == 0xAA || n == 0xB5 || n == 0xBA
    || (0xC0 ≤ n && n ≤ 0xD6) || (0xD8 ≤ n && n ≤ 0xF6) || (0xF8 ≤ n && n ≤ 0xFF)

/-- The range tables `unicode.Digit` (category Nd) and `unicode.Letter`
(category L) above Latin-1. They depend on the Unicode version of the Go
release, so they are a parameter. The three facts hold for every Unicode
version: general categories are disjoint, and no White_Space rune is a letter
or a decimal digit. -/
structure UnicodeTables where
  /-- Membership in `unicode.Digit`. -/
  digit : Char → Bool
  /-- Membership in `unicode.Letter`. -/
  letter : Char → Bool
  /-- No rune is both a letter and a decimal digit. -/
  letter_not_digit : ∀ c, letter c = true → digit c = false
  /-- No white space rune is a letter. -/
  space_not_letter : ∀ c, isSpace c = true → letter c = false
  /-- No white space rune is a decimal digit. -/
  space_not_digit : ∀ c, isSpace c = true → digit c = false

/-- The tables cut off at U+00FF: no rune above Latin-1 is a digit or a
letter. -/
def latin1Tables : UnicodeTables where
  digit := fun _ => false
  letter := fun _ => false
  letter_not_digit := fun _ _ => rfl
  space_not_letter := fun _ _ => rfl
  space_not_digit := fun _ _ => rfl

/-- Decimal digits as `unicode.IsDigit` defines them: `0-9` in Latin-1, the
table above it. -/
def isDigit (T : UnicodeTables) (c : Char) : Bool :=
  if c.toNat ≤ 0xFF then (0x30 ≤ c.toNat && c.toNat ≤ 0x39) else T.digit c

/-- Letters as `unicode.IsLetter` defines them. -/
def isLetter (T : UnicodeTables) (c : Char) : Bool :=
  if c.toNat ≤ 0xFF then latin1Letter c.toNat else T.letter c

/-- The emptiness test of `strings.TrimSpace`: leading and trailing white
space is cut off. -/
def trimSpace (s : List Char) : List Char :=
  ((s.dropWhile isSpace).reverse.dropWhile isSpace).reverse

/-! ## float64 -/

/-- A double: NaN, an infinity, or a finite value `± k * 2^(-1074)`. Every
finite double is such a multiple; the `k` of a double has at most 53
significant bits and is below `2^2098`. Zero has a sign. -/
inductive F64 where
  | nan
  | inf (neg : Bool)
  | fin (neg : Bool) (k : Nat)
  deriving DecidableEq, Repr

namespace F64

/-- Number of binary digits of `n`; `fuel` bounds the number of halvings. -/
def bitLen : Nat → Nat → Nat
  | 0, _ => 0
  | fuel + 1, n => if n = 0 then 0 else bitLen fuel (n / 2) + 1

/-- The integer nearest to `num / den`, a tie going to the even one. -/
def roundHalfEven (num den : Nat) : Nat :=
  let q := num / den
  let r := num % den
  if 2 * r < den then q
  else if den < 2 * r then q + 1
  else if q % 2 = 0 then q else q + 1

/-- Rounding to the nearest double (ties to even) of the exact magnitude
`num / den` units of `2^(-1074)`: below `2^53` units the doubles are the whole
numbers of units; above, 53 significant bits are kept. A result of `2^2098`
units (`2^1024`) or more overflows to infinity. -/
def roundUnits (neg : Bool) (num den : Nat) : F64 :=
  let q := num / den
  let s := bitLen q q - 53
  let k := roundHalfEven num (den * 2 ^ s) * 2 ^ s
  if 2 ^ 2098 ≤ k then inf neg else fin neg k

/-- Unary minus. -/
def neg : F64 → F64
  | nan => nan
  | inf s => inf (!s)
  | fin s k => fin (!s) k

/-- IEEE 754 addition. -/
def add : F64 → F64 → F64
  | nan, _ => nan
  | _, nan => nan
  | inf s, inf t => if s = t then inf s else nan
  | inf s, fin _ _ => inf s
  | fin _ _, inf t => inf t
  | fin s a, fin t b =>
    if s = t then roundUnits s (a + b) 1
    else if b < a then roundUnits s (a - b) 1
    else if a < b then roundUnits t (b - a) 1
    else fin false 0

/-- IEEE 754 subtraction. -/
def sub (x y : F64) : F64 := add x (neg y)

/-- IEEE 754 multiplication. -/
def mul : F64 → F64 → F64
  | nan, _ => nan
  | _, nan => nan
  | inf s, inf t => inf (xor s t)
  | inf s, fin t b => if b = 0 then nan else inf (xor s t)
  | fin s a, inf t => if a = 0 then nan else inf (xor s t)
  | fin s a, fin t b => roundUnits (xor s t) (a * b) (2 ^ 1074)

/-- IEEE 754 division. -/
def div : F64 → F64 → F64
  | nan, _ => nan
  | _, nan => nan
  | inf _, inf _ => nan
  | inf s, fin t _ => inf (xor s t)
  | fin s _, inf t => fin (xor s t) 0
  | fin s a, fin t b =>
    if b = 0 then (if a = 0 then nan else inf (xor s t))
    else roundUnits (xor s t) (a * 2 ^ 1074) b

/-- The comparison `x == y`: NaN equals nothing, the two zeros are equal. -/
def eq : F64 → F64 → Bool
  | inf s, inf t => s == t
  | fin s a, fin t b => (a == 0 && b == 0) || (s == t && a == b)
  | _, _ => false

/-- The comparison `x < y`; false when either side is NaN. -/
def lt : F64 → F64 → Bool
  | nan, _ => false
  | _, nan => false
  | inf s, inf t => s && !t
  | inf s, fin _ _ => s
  | fin _ _, inf t => !t
  | fin s a, fin t b =>
    match s, t with
    | false, false => decide (a < b)
    | true, true => decide (b < a)
    | true, false => !(a == 0 && b == 0)
    | false, true => false

/-- The test `math.IsInf(x, 0)`. -/
def isInf : F64 → Bool
  | inf _ => true
  | _ => false

/-- The test `math.IsNaN(x)`. -/
def isNaN : F64 → Bool
  | nan => true
  | _ => false

/-- The double `+0`, the zero value of `float64`. -/
def zero : F64 := fin false 0

/-- The double of a non-negative decimal `digits / 10^scale`. -/
def ofDecimal (digits scale : Nat) : F64 :=
  roundUnits false (digits * 2 ^ 1074) (10 ^ scale)

/-- The constant `1.797693e+308` of `applyOperation`, converted to float64. -/
def overflowLimit : F64 := roundUnits false (1797693 * 10 ^ 302 * 2 ^ 1074) 1

/-- The largest finite double, `math.MaxFloat64`: `(2^53 - 1) * 2^971`. -/
def maxFloat64 : F64 := fin false ((2 ^ 53 - 1) * 2 ^ 2045)

/-- The product `x` passes the comparisons of `applyOperation` with
`1.797693e+308` and `-1.797693e+308`. -/
def withinLimit (x : F64) : Bool := !(lt overflowLimit x || lt x (neg overflowLimit))

end F64

/-! ## strconv.ParseFloat -/

/-- Value of a run of ASCII digits read after the value `acc`; `none` when a
rune is not an ASCII digit. -/
def digitsValue : Nat → List Char → Option Nat
  | acc, [] => some acc
  | acc, c :: cs =>
    if 0x30 ≤ c.toNat && c.toNat ≤ 0x39 then digitsValue (acc * 10 + (c.toNat - 0x30)) cs
    else none

/-- The unsigned decimal forms `ParseFloat` accepts without an exponent:
`ddd`, `ddd.`, `.ddd`, `ddd.ddd`, with at least one digit. The result is the
nearest double; a value that rounds to infinity is a range error. -/
def parseDecimal (s : List Char) : Option F64 :=
  let intPart := s.takeWhile (fun c => c != '.')
  let rest := s.dropWhile (fun c => c != '.')
  let fracPart := rest.drop 1
  if intPart.length + fracPart.length = 0 then none
  else
    match digitsValue 0 (intPart ++ fracPart) with
    | none => none
    | some d =>
      match F64.ofDecimal d fracPart.length with
      | F64.fin s k => some (F64.fin s k)
      | _ => none

/-- The function `strconv.ParseFloat(token, 64)`, `none` standing for a
non-nil error, on strings without letters and without underscores: an optional
sign and a decimal mantissa. (Exponents, hexadecimal forms, `inf` and `nan`
need a letter, and `tokenize` rejects letters; it never puts an underscore in
a token next to a digit.) -/
def parseFloat (token : List Char) : Option F64 :=
  match token with
  | '+' :: rest => parseDecimal rest
  | '-' :: rest => (parseDecimal rest).map F64.neg
  | _ => parseDecimal token

/-! ## Outcomes -/

/-- Why a call does not return a value: a returned `error`, identified by its
message text, or a run-time panic. -/
inductive Fault where
  | error (msg : String)
  | panic
  deriving DecidableEq, Repr

deriving instance DecidableEq for Except

/-- Outcome of a call that returns `(value, error)`. -/
abbrev Result (α : Type) := Except Fault α

/-- The Go statement `return errors.New(msg)`. -/
def fail {α : Type} (msg : String) : Result α := Except.error (Fault.error msg)

/-- A token: the text of a numeric literal, or one other rune. -/
abbrev Token := List Char

/-! ## calculation.go -/

/-- The function `isOperator`. -/
def isOperator (token : Token) : Bool :=
  token == ['+'] || token == ['-'] || token == ['*'] || token == ['/']

/-- The loop of `tokenize` over the runes still to read, with the local
variables `tokens`, `currentToken` and `hasDecimalPoint`; the empty list is
the code after the loop. -/
def tokenizeLoop (T : UnicodeTables) :
    List Char → List Token → List Char → Bool → Result (List Token)
  | [], tokens, currentToken, _ =>
    if currentToken.length > 0 then Except.ok (tokens ++ [currentToken]) else Except.ok tokens
  | char :: rest, tokens, currentToken, hasDecimalPoint =>
    if isSpace char then
      if currentToken.length > 0 then tokenizeLoop T rest (tokens ++ [currentToken]) [] false
      else tokenizeLoop T rest tokens currentToken hasDecimalPoint
    else if isDigit T char then
      tokenizeLoop T rest tokens (currentToken ++ [char]) hasDecimalPoint
    else if char = '.' then
      if hasDecimalPoint then fail "invalid token"
      else tokenizeLoop T rest tokens (currentToken ++ [char]) true
    else if isLetter T char then fail "invalid token"
    else
      if currentToken.length > 0 then
        tokenizeLoop T rest (tokens ++ [currentToken] ++ [[char]]) [] false
      else tokenizeLoop T rest (tokens ++ [[char]]) currentToken hasDecimalPoint

/-- The function `tokenize`. -/
def tokenize (T : UnicodeTables) (expression : List Char) : Result (List Token) :=
  tokenizeLoop T expression [] [] false

/-- The function `precedence`. -/
def precedence (op : Token) : Nat :=
  if op = ['+'] ∨ op = ['-'] then 1
  else if op = ['*'] ∨ op = ['/'] then 2
  else 0

/-- The `switch op` of `applyOperation` on the operands `a` and `b`, followed
by its test of `result`. An operator other than the four leaves `result` at
its zero value. -/
def applyOperator (op : Token) (a b : F64) : Result F64 :=
  let switched : Result F64 :=
    if op = ['+'] then Except.ok (F64.add a b)
    else if op = ['-'] then Except.ok (F64.sub a b)
    else if op = ['*'] then
      let result := F64.mul a b
      if F64.lt F64.overflowLimit result || F64.lt result (F64.neg F64.overflowLimit)
          || !(F64.eq result result) then fail "numeric overflow"
      else Except.ok result
    else if op = ['/'] then
      if F64.eq b F64.zero then fail "division by zero"
      else Except.ok (F64.div a b)
    else Except.ok F64.zero
  match switched with
  | Except.error e => Except.error e
  | Except.ok result =>
    if F64.isInf result || F64.isNaN result then fail "numeric overflow"
    else Except.ok result

/-- The function `applyOperation` on the two stacks; it returns the stacks it
leaves. Reading the top of an empty operator stack panics. -/
def applyOperation (numbers : List F64) (operators : List Token) :
    Result (List F64 × List Token) :=
  match numbers with
  | b :: a :: numbersRest =>
    match operators with
    | [] => Except.error Fault.panic
    | op :: operatorsRest =>
      match applyOperator op a b with
      | Except.error e => Except.error e
      | Except.ok result => Except.ok (result :: numbersRest, operatorsRest)
  | _ => fail "not enough operands"

/-- A loop `for len(operators) > 0 && cond(top) { applyOperation }`, as
`evaluate` has for an operator token and for `)`. A call of `applyOperation`
that returns no error pops exactly the top operator
(`applyOperation_operators`), so the loop goes on with the rest of the
operator stack. -/
def reduceWhile (cond : Token → Bool) :
    List F64 → List Token → Result (List F64 × List Token)
  | numbers, [] => Except.ok (numbers, [])
  | numbers, top :: rest =>
    if cond top then
      match applyOperation numbers (top :: rest) with
      | Except.error e => Except.error e
      | Except.ok (numbers1, _) => reduceWhile cond numbers1 rest
    else Except.ok (numbers, top :: rest)

/-- The main loop of `evaluate` over the tokens still to read. -/
def evaluateLoop : List Token → List F64 → List Token → Result (List F64 × List Token)
  | [], numbers, operators => Except.ok (numbers, operators)
  | token :: rest, numbers, operators =>
    if token = ['+'] ∨ token = ['-'] ∨ token = ['*'] ∨ token = ['/'] then
      match reduceWhile (fun top => decide (precedence top ≥ precedence token))
          numbers operators with
      | Except.error e => Except.error e
      | Except.ok (numbers1, operators1) => evaluateLoop rest numbers1 (token :: operators1)
    else if token = ['('] then evaluateLoop rest numbers (token :: operators)
    else if token = [')'] then
      match reduceWhile (fun top => decide (top ≠ ['('])) numbers operators with
      | Except.error e => Except.error e
      | Except.ok (numbers1, operators1) =>
        match operators1 with
        | [] => fail "mismatched parentheses"
        | top :: operators2 =>
          if top ≠ ['('] then fail "mismatched parentheses"
          else evaluateLoop rest numbers1 operators2
    else
      match parseFloat token with
      | none => fail ("invalid token: " ++ String.mk token)
      | some num => evaluateLoop rest (num :: numbers) operators

/-- The final loop of `evaluate`: `for len(operators) > 0`, failing on an
open parenthesis. -/
def drainOperators : List F64 → List Token → Result (List F64 × List Token)
  | numbers, [] => Except.ok (numbers, [])
  | numbers, top :: rest =>
    if top = ['('] then fail "mismatched parentheses"
    else
      match applyOperation numbers (top :: rest) with
      | Except.error e => Except.error e
      | Except.ok (numbers1, _) => drainOperators numbers1 rest

/-- The function `evaluate`. -/
def evaluate (tokens : List Token) : Result F64 :=
  match evaluateLoop tokens [] [] with
  | Except.error e => Except.error e
  | Except.ok (numbers, operators) =>
    match drainOperators numbers operators with
    | Except.error e => Except.error e
    | Except.ok (numbers1, _) =>
      match numbers1 with
      | [x] => Except.ok x
      | _ => fail "invalid expression"

/-- The loop of `Calc` that looks for two adjacent operator tokens. -/
def consecutiveOperators : List Token → Bool
  | a :: b :: rest => (isOperator a && isOperator b) || consecutiveOperators (b :: rest)
  | _ => false

/-- The function `Calc`. The reads `tokens[0]` and `tokens[len(tokens)-1]`
panic on an empty token sequence. -/
def Calc (T : UnicodeTables) (expression : List Char) : Result F64 :=
  if trimSpace expression = [] then fail "empty expression"
  else
    match tokenize T expression with
    | Except.error e => Except.error e
    | Except.ok tokens =>
      match tokens.head?, tokens.getLast? with
      | some first, some last =>
        if isOperator first || isOperator last then fail "invalid expression"
        else if consecutiveOperators tokens then
          fail "invalid expression: consecutive operators"
        else evaluate tokens
      | _, _ => Except.error Fault.panic

/-! ## application.go: the answer to a request -/

/-- What `HandleCalculate` writes: the status code and the `CalculateResponse`
with its `error` text (empty when omitted) and its `result`. -/
structure Response where
  status : Nat
  error : String
  result : Option F64
  deriving DecidableEq, Repr

/-- The function `sendError`. -/
def sendError (message : String) (status : Nat) : Response :=
  { status := status, error := message, result := none }

/-- The function `sendResponse` on a result: status 200. The field `Result`
is tagged `omitempty`, so a result equal to zero is left out of the body. -/
def sendResponse (result : F64) : Response :=
  { status := 200, error := "",
    result := if F64.eq result F64.zero then none else some result }

/-- The `switch err.Error()` of `HandleCalculate`; 422 is
`http.StatusUnprocessableEntity`, 500 is `http.StatusInternalServerError`. -/
def respondToError (msg : String) : Response :=
  if msg = "empty expression" then sendError "Expression cannot be empty" 422
  else if msg = "division by zero" then sendError "Division by zero is not allowed" 422
  else if msg = "invalid expression: consecutive operators" then
    sendError "Consecutive operators are not allowed" 422
  else if msg = "mismatched parentheses" then sendError "Parentheses are mismatched" 422
  else if msg = "invalid token" ∨ msg = "invalid expression" then
    sendError "Expression is not valid" 422
  else sendError "Internal server error" 500

/-- The function `HandleCalculate` from the point where the request body has
been decoded to the string `expression`. A panic of the handler writes no
response. -/
def HandleCalculate (T : UnicodeTables) (expression : List Char) : Option Response :=
  if expression = [] then some (sendError "Expression cannot be empty" 422)
  else
    match Calc T expression with
    | Except.error Fault.panic => none
    | Except.error (Fault.error msg) => some (respondToError msg)
    | Except.ok result => some (sendResponse result)

/-! ## Vocabulary of the statements -/

/-- The faults `evaluate` can end with. -/
def IsEvaluateFault (e : Fault) : Prop :=
  e = Fault.error "not enough operands" ∨ e = Fault.error "numeric overflow" ∨
  e = Fault.error "division by zero" ∨ e = Fault.error "mismatched parentheses" ∨
  e = Fault.error "invalid expression" ∨
  ∃ token : Token, e = Fault.error ("invalid token: " ++ String.mk token)

/-- The text of a numeric literal as `tokenize` cuts it out and `ParseFloat`
reads it: ASCII digits with at most one decimal point, not empty. -/
def isLiteralText (z : List Char) : Bool :=
  !z.isEmpty && z.all (fun c => (0x30 ≤ c.toNat && c.toNat ≤ 0x39) || c == '.')
    && decide (List.count '.' z ≤ 1)

/-- Nesting depth after the tokens, starting from depth `d`; `none` when some
`)` has no earlier unmatched `(`. -/
def parenDepth : Nat → List Token → Option Nat
  | d, [] => some d
  | d, token :: rest =>
    if token = ['('] then parenDepth (d + 1) rest
    else if token = [')'] then (if d = 0 then none else parenDepth (d - 1) rest)
    else parenDepth d rest

/-- Balanced parentheses: every `)` has an earlier unmatched `(`, and every
`(` is closed. -/
def balanced (tokens : List Token) : Bool := parenDepth 0 tokens == some 0

/-! ## Standard infix arithmetic, the reference of the evaluator -/

/-- The four binary operators. -/
inductive BinOp where
  | add
  | sub
  | mul
  | div
  deriving DecidableEq, Repr

/-- The token of an operator. -/
def BinOp.token : BinOp → Token
  | BinOp.add => ['+']
  | BinOp.sub => ['-']
  | BinOp.mul => ['*']
  | BinOp.div => ['/']

/-- Binding strength: `*` and `/` bind tighter than `+` and `-`. -/
def BinOp.level : BinOp → Nat
  | BinOp.add => 1
  | BinOp.sub => 1
  | BinOp.mul => 2
  | BinOp.div => 2

/-- The arithmetic of an operator in double precision. -/
def BinOp.apply : BinOp → F64 → F64 → F64
  | BinOp.add, a, b => F64.add a b
  | BinOp.sub, a, b => F64.sub a b
  | BinOp.mul, a, b => F64.mul a b
  | BinOp.div, a, b => F64.div a b

/-- An expression tree: a numeric literal, a parenthesised expression, or a
binary operator between two expressions. -/
inductive Expr where
  | lit (text : List Char)
  | paren (e : Expr)
  | bin (op : BinOp) (l r : Expr)
  deriving Repr

namespace Expr

/-- Binding strength of the top of a tree; a literal and a parenthesised
expression are units. -/
def level : Expr → Nat
  | lit _ => 3
  | paren _ => 3
  | bin op _ _ => op.level

/-- The tree is the reading that standard infix notation gives its own text:
every literal is a valid number, the left operand of an operator binds at
least as tightly as the operator (equal precedence associates to the left),
the right operand binds strictly tighter. -/
def wellFormed : Expr → Bool
  | lit z => isLiteralText z && (parseFloat z).isSome
  | paren e => wellFormed e
  | bin op l r =>
    wellFormed l && wellFormed r && decide (op.level ≤ level l) && decide (op.level < level r)

/-- The tokens of the text of a tree, in order. -/
def tokens : Expr → List Token
  | lit z => [z]
  | paren e => ['('] :: (tokens e ++ [[')']])
  | bin op l r => tokens l ++ op.token :: tokens r

/-- Reference evaluation: the value of the tree in double precision
arithmetic, `none` when a division by zero or an overflow (a result that is
not a finite double) is met. -/
def value : Expr → Option F64
  | lit z => parseFloat z
  | paren e => value e
  | bin op l r =>
    match value l, value r with
    | some a, some b =>
      if op = BinOp.div ∧ F64.eq b F64.zero = true then none
      else if F64.isInf (op.apply a b) || F64.isNaN (op.apply a b) then none
      else some (op.apply a b)
    | _, _ => none

/-- No product in the tree lies beyond the constant `1.797693e+308` that
`applyOperation` compares products with. -/
def productsWithinLimit : Expr → Bool
  | lit _ => true
  | paren e => productsWithinLimit e
  | bin op l r =>
    productsWithinLimit l && productsWithinLimit r &&
      (match op, value l, value r with
       | BinOp.mul, some a, some b => F64.withinLimit (F64.mul a b)
       | _, _, _ => true)

end Expr

/-- The text of a token sequence: before every token stands its gap. -/
def spaced : List (List Char × Token) → List Char
  | [] => []
  | (gap, token) :: rest => gap ++ (token ++ spaced rest)

/-- A way of writing tokens out: the gaps consist of white space, and so does
the text after the last token. -/
def isLayout (items : List (List Char × Token)) (trailing : List Char) : Bool :=
  items.all (fun item => item.1.all isSpace) && trailing.all isSpace

/-- Operands and operators alternate: `after` tells whether an operand has
just ended. Before an operand only `(` may stand, after it only `)`. -/
def alternates : Bool → List Token → Bool
  | after, [] => after
  | false, token :: rest =>
    if isLiteralText token then alternates true rest
    else if token = ['('] then alternates false rest
    else false
  | true, token :: rest =>
    if isOperator token then alternates false rest
    else if token = [')'] then alternates true rest
    else false

/-- The literal `17976931` followed by 301 zeros, about `1.7976931e308`:
above the constant `1.797693e+308`, below `math.MaxFloat64`. -/
def nearMaxLiteral : List Char := "17976931".toList ++ List.replicate 301 '0'

/-- The text is at its end, or goes on with white space or with a rune that
is a token of its own: a numeric literal before it ends there. -/
def startsClean (T : UnicodeTables) : List Char → Bool
  | [] => true
  | c :: _ => isSpace c || (!isDigit T c && c != '.' && !isLetter T c)

/-- The stacks `numbers1`, `operators1` hold an operand of value `v` and of
binding strength `lvl` above the stacks `numbers`, `operators`: the value
itself, or one pending operation, or a pending `+` or `-` under a pending
`*` or `/`. Every pending operator binds at least as tightly as `lvl`. -/
def Pending (lvl : Nat) (v : F64) (numbers : List F64) (operators : List Token)
    (numbers1 : List F64) (operators1 : List Token) : Prop :=
  (numbers1 = v :: numbers ∧ operators1 = operators) ∨
  (∃ (op : BinOp) (a b : F64), lvl ≤ op.level ∧ applyOperator op.token a b = Except.ok v ∧
    numbers1 = b :: a :: numbers ∧ operators1 = op.token :: operators) ∨
  (∃ (op1 op2 : BinOp) (a b c w : F64), lvl ≤ 1 ∧ op1.level = 1 ∧ op2.level = 2 ∧
    applyOperator op2.token b c = Except.ok w ∧ applyOperator op1.token a w = Except.ok v ∧
    numbers1 = c :: b :: a :: numbers ∧ operators1 = op2.token :: op1.token :: operators)

/-- The faults of the error taxonomy: EmptyExpression, InvalidToken (with or
without the offending token in the text), InvalidExpression,
ConsecutiveOperators, MismatchedParentheses, DivisionByZero and
NumericOverflow. -/
def IsTaxonomyFault (e : Fault) : Prop :=
  e = Fault.error "empty expression" ∨ e = Fault.error "invalid token" ∨
  (∃ token : Token, e = Fault.error ("invalid token: " ++ String.mk token)) ∨
  e = Fault.error "invalid expression" ∨
  e = Fault.error "invalid expression: consecutive operators" ∨
  e = Fault.error "mismatched parentheses" ∨ e = Fault.error "division by zero" ∨
  e = Fault.error "numeric overflow"

/-- The bound of the finite doubles in units of `2^(-1074)`: `2^1024`. -/
def F64.unitsBound : Nat := 2 ^ 2098

/-- A finite double: neither NaN nor an infinity, of magnitude below
`2^1024`. -/
def F64.isFinite : F64 → Bool
  | F64.fin _ k => decide (k < F64.unitsBound)
  | _ => false

/-- The literal `1` followed by 200 zeros. -/
def tenToThe200 : List Char := '1' :: List.replicate 200 '0'

/-! ## Runes of Latin-1 do not consult the tables -/

theorem isDigit_latin1 (T : UnicodeTables) (c : Char) (h : c.toNat ≤ 0xFF) :
    isDigit T c = isDigit latin1Tables c := by
  simp [isDigit, h]

theorem isLetter_latin1 (T : UnicodeTables) (c : Char) (h : c.toNat ≤ 0xFF) :
    isLetter T c = isLetter latin1Tables c := by
  simp [isLetter, h]

theorem tokenizeLoop_latin1 (T : UnicodeTables) (s : List Char)
    (h : ∀ c ∈ s, c.toNat ≤ 0xFF) (tokens : List Token) (cur : List Char) (dp : Bool) :
    tokenizeLoop T s tokens cur dp = tokenizeLoop latin1Tables s tokens cur dp := by
  induction s generalizing tokens cur dp with
  | nil => rfl
  | cons c rest ih =>
    have hc : c.toNat ≤ 0xFF := h c (List.mem_cons_self _ _)
    have hrest : ∀ d ∈ rest, d.toNat ≤ 0xFF := fun d hd => h d (List.mem_cons_of_mem _ hd)
    simp only [tokenizeLoop, isDigit_latin1 T c hc, isLetter_latin1 T c hc, ih hrest]

/-- On an input of Latin-1 runes `Calc` does not depend on the Unicode
tables. -/
theorem Calc_latin1 (T : UnicodeTables) (s : List Char) (h : ∀ c ∈ s, c.toNat ≤ 0xFF) :
    Calc T s = Calc latin1Tables s := by
  simp only [Calc, tokenize, tokenizeLoop_latin1 T s h]

/-! ## Facts about runes -/

theorem isDigit_not_space (T : UnicodeTables) (c : Char) (h : isDigit T c = true) :
    isSpace c = false := by
  by_cases hc : c.toNat ≤ 0xFF
  · simp only [isDigit, hc, if_true, Bool.and_eq_true, decide_eq_true_eq] at h
    simp only [isSpace, Bool.or_eq_false_iff, Bool.and_eq_false_iff, beq_eq_false_iff_ne,
      decide_eq_false_iff_not]
    omega
  · simp only [isDigit, hc, if_false] at h
    cases hs : isSpace c with
    | false => rfl
    | true => rw [T.space_not_digit c hs] at h; exact absurd h (by decide)

theorem isLetter_not_space (T : UnicodeTables) (c : Char) (h : isLetter T c = true) :
    isSpace c = false := by
  by_cases hc : c.toNat ≤ 0xFF
  · simp only [isLetter, hc, if_true, latin1Letter, Bool.or_eq_true, Bool.and_eq_true,
      decide_eq_true_eq, beq_iff_eq] at h
    simp only [isSpace, Bool.or_eq_false_iff, Bool.and_eq_false_iff, beq_eq_false_iff_ne,
      decide_eq_false_iff_not]
    omega
  · simp only [isLetter, hc, if_false] at h
    cases hs : isSpace c with
    | false => rfl
    | true => rw [T.space_not_letter c hs] at h; exact absurd h (by decide)

theorem isLetter_not_digit (T : UnicodeTables) (c : Char) (h : isLetter T c = true) :
    isDigit T c = false := by
  by_cases hc : c.toNat ≤ 0xFF
  · simp only [isLetter, hc, if_true, latin1Letter, Bool.or_eq_true, Bool.and_eq_true,
      decide_eq_true_eq, beq_iff_eq] at h
    simp only [isDigit, hc, if_true, Bool.and_eq_false_iff, decide_eq_false_iff_not]
    omega
  · simp only [isLetter, hc, if_false] at h
    simp only [isDigit, hc, if_false]
    exact T.letter_not_digit c h

theorem isLetter_ne_dot (T : UnicodeTables) (c : Char) (h : isLetter T c = true) : c ≠ '.' := by
  intro hc
  subst hc
  revert h
  simp [isLetter, latin1Letter]

theorem isSpace_dot : isSpace '.' = false := by decide

theorem isDigit_dot (T : UnicodeTables) : isDigit T '.' = false := by
  simp [isDigit]

theorem trimSpace_eq_nil_iff (s : List Char) :
    trimSpace s = [] ↔ ∀ c ∈ s, isSpace c = true := by
  unfold trimSpace
  rw [List.reverse_eq_nil_iff, List.dropWhile_eq_nil_iff]
  constructor
  · intro h
    by_cases hnil : s.dropWhile isSpace = []
    · exact List.dropWhile_eq_nil_iff.mp hnil
    · exfalso
      have hhead := List.head_dropWhile_not isSpace s hnil
      have hmem : (s.dropWhile isSpace).head hnil ∈ (s.dropWhile isSpace).reverse :=
        List.mem_reverse.mpr (List.head_mem hnil)
      rw [h _ hmem] at hhead
      exact absurd hhead (by decide)
  · intro h c hc
    rw [List.dropWhile_eq_nil_iff.mpr h] at hc
    simp at hc

/-! ## The tokenizer -/

/-- Every error of the tokenizer has the text "invalid token". -/
theorem tokenizeLoop_fault (T : UnicodeTables) (s : List Char) (tokens : List Token)
    (cur : List Char) (dp : Bool) (e : Fault)
    (h : tokenizeLoop T s tokens cur dp = Except.error e) : e = Fault.error "invalid token" := by
  induction s generalizing tokens cur dp with
  | nil =>
    simp only [tokenizeLoop] at h
    split at h <;> cases h
  | cons c rest ih =>
    simp only [tokenizeLoop, fail] at h
    split at h
    · split at h <;> exact ih _ _ _ h
    · split at h
      · exact ih _ _ _ h
      · split at h
        · split at h
          · cases h; rfl
          · exact ih _ _ _ h
        · split at h
          · cases h; rfl
          · split at h <;> exact ih _ _ _ h

/-- A suffix on which the tokenizer fails from every state makes it fail
whatever precedes it. -/
theorem tokenizeLoop_append_fail (T : UnicodeTables) (rest : List Char)
    (hrest : ∀ tokens cur dp, tokenizeLoop T rest tokens cur dp = fail "invalid token")
    (pre : List Char) (tokens : List Token) (cur : List Char) (dp : Bool) :
    tokenizeLoop T (pre ++ rest) tokens cur dp = fail "invalid token" := by
  induction pre generalizing tokens cur dp with
  | nil => exact hrest _ _ _
  | cons c pre ih =>
    simp only [List.cons_append, tokenizeLoop]
    split
    · split <;> exact ih _ _ _
    · split
      · exact ih _ _ _
      · split
        · split
          · rfl
          · exact ih _ _ _
        · split
          · rfl
          · split <;> exact ih _ _ _

/-- A letter stops the tokenizer in every state. -/
theorem tokenizeLoop_letter (T : UnicodeTables) (c : Char) (hc : isLetter T c = true)
    (post : List Char) (tokens : List Token) (cur : List Char) (dp : Bool) :
    tokenizeLoop T (c :: post) tokens cur dp = fail "invalid token" := by
  simp [tokenizeLoop, isLetter_not_space T c hc, isLetter_not_digit T c hc,
    isLetter_ne_dot T c hc, hc]

/-- After a decimal point, digits and a further decimal point stop the
tokenizer. -/
theorem tokenizeLoop_second_dot (T : UnicodeTables) (mid post : List Char)
    (hmid : ∀ c ∈ mid, isDigit T c = true ∨ c = '.') (tokens : List Token) (cur : List Char) :
    tokenizeLoop T (mid ++ '.' :: post) tokens cur true = fail "invalid token" := by
  induction mid generalizing cur with
  | nil => simp [tokenizeLoop, isSpace_dot, isDigit_dot]
  | cons c mid ih =>
    have hmid1 : ∀ d ∈ mid, isDigit T d = true ∨ d = '.' :=
      fun d hd => hmid d (List.mem_cons_of_mem _ hd)
    rcases hmid c (List.mem_cons_self _ _) with hd | hd
    · simp only [List.cons_append, tokenizeLoop, isDigit_not_space T c hd, hd]
      exact ih hmid1 _
    · subst hd
      simp [tokenizeLoop, isSpace_dot, isDigit_dot]

/-- Two decimal points with only digits between them stop the tokenizer in
every state. -/
theorem tokenizeLoop_two_dots (T : UnicodeTables) (mid post : List Char)
    (hmid : ∀ c ∈ mid, isDigit T c = true ∨ c = '.') (tokens : List Token) (cur : List Char)
    (dp : Bool) :
    tokenizeLoop T ('.' :: (mid ++ '.' :: post)) tokens cur dp = fail "invalid token" := by
  cases dp with
  | true => simp [tokenizeLoop, isSpace_dot, isDigit_dot]
  | false =>
    simp only [tokenizeLoop, isSpace_dot, isDigit_dot]
    simpa using tokenizeLoop_second_dot T mid post hmid tokens _

/-! ## Faults of the evaluator -/

theorem applyOperator_fault (op : Token) (a b : F64) (e : Fault)
    (h : applyOperator op a b = Except.error e) :
    e = Fault.error "numeric overflow" ∨ e = Fault.error "division by zero" := by
  unfold applyOperator at h
  simp only [fail] at h
  repeat' split at h
  all_goals first
    | (injection h with h; subst h; simp)
    | (rename_i heq; repeat' split at heq
       all_goals first
        | (injection heq with heq; subst heq; injection h with h; subst h; simp)
        | cases heq
        | cases h)

theorem applyOperation_fault (numbers : List F64) (top : Token) (rest : List Token) (e : Fault)
    (h : applyOperation numbers (top :: rest) = Except.error e) :
    e = Fault.error "not enough operands" ∨ e = Fault.error "numeric overflow" ∨
      e = Fault.error "division by zero" := by
  unfold applyOperation at h
  split at h
  · simp only at h
    split at h
    · cases h
      rename_i heq
      exact Or.inr (applyOperator_fault _ _ _ _ heq)
    · cases h
  · cases h
    exact Or.inl rfl

/-- A call of `applyOperation` that returns no error pops exactly the top
operator. -/
theorem applyOperation_operators (numbers : List F64) (top : Token) (rest : List Token)
    (numbers1 : List F64) (operators1 : List Token)
    (h : applyOperation numbers (top :: rest) = Except.ok (numbers1, operators1)) :
    operators1 = rest := by
  unfold applyOperation at h
  split at h
  · simp only at h
    split at h
    · cases h
    · cases h; rfl
  · cases h

theorem reduceWhile_fault (cond : Token → Bool) (numbers : List F64) (operators : List Token)
    (e : Fault) (h : reduceWhile cond numbers operators = Except.error e) :
    e = Fault.error "not enough operands" ∨ e = Fault.error "numeric overflow" ∨
      e = Fault.error "division by zero" := by
  induction operators generalizing numbers with
  | nil => cases h
  | cons top rest ih =>
    simp only [reduceWhile] at h
    split at h
    · split at h
      · rename_i heq
        cases h
        exact applyOperation_fault _ _ _ _ heq
      · exact ih _ h
    · cases h

theorem drainOperators_fault (numbers : List F64) (operators : List Token)
    (e : Fault) (h : drainOperators numbers operators = Except.error e) :
    e = Fault.error "not enough operands" ∨ e = Fault.error "numeric overflow" ∨
      e = Fault.error "division by zero" ∨ e = Fault.error "mismatched parentheses" := by
  induction operators generalizing numbers with
  | nil => cases h
  | cons top rest ih =>
    simp only [drainOperators, fail] at h
    split at h
    · cases h; simp
    · split at h
      · rename_i heq
        cases h
        rcases applyOperation_fault _ _ _ _ heq with h1 | h1 | h1 <;> simp [h1]
      · exact ih _ h

theorem evaluateLoop_fault (tokens : List Token) (numbers : List F64) (operators : List Token)
    (e : Fault) (h : evaluateLoop tokens numbers operators = Except.error e) :
    IsEvaluateFault e := by
  induction tokens generalizing numbers operators with
  | nil => cases h
  | cons token rest ih =>
    simp only [evaluateLoop, fail] at h
    split at h
    · split at h
      · rename_i heq
        cases h
        rcases reduceWhile_fault _ _ _ _ heq with h1 | h1 | h1 <;> simp [IsEvaluateFault, h1]
      · exact ih _ _ h
    · split at h
      · exact ih _ _ h
      · split at h
        · split at h
          · rename_i heq
            cases h
            rcases reduceWhile_fault _ _ _ _ heq with h1 | h1 | h1 <;>
              simp [IsEvaluateFault, h1]
          · split at h
            · cases h; simp [IsEvaluateFault]
            · split at h
              · cases h; simp [IsEvaluateFault]
              · exact ih _ _ h
        · split at h
          · cases h
            exact Or.inr (Or.inr (Or.inr (Or.inr (Or.inr ⟨token, rfl⟩))))
          · exact ih _ _ h

/-- Every fault of `evaluate` is one of six errors; it never panics. -/
theorem evaluate_fault (tokens : List Token) (e : Fault)
    (h : evaluate tokens = Except.error e) : IsEvaluateFault e := by
  unfold evaluate at h
  split at h
  · rename_i heq
    cases h
    exact evaluateLoop_fault _ _ _ _ heq
  · split at h
    · rename_i heq
      cases h
      rcases drainOperators_fault _ _ _ heq with h1 | h1 | h1 | h1 <;>
        simp [IsEvaluateFault, h1]
    · split at h
      · cases h
      · cases h; simp [IsEvaluateFault, fail]

theorem not_isEvaluateFault_empty : ¬ IsEvaluateFault (Fault.error "empty expression") := by
  unfold IsEvaluateFault
  intro h
  rcases h with h | h | h | h | h | ⟨token, h⟩
  · exact absurd h (by decide)
  · exact absurd h (by decide)
  · exact absurd h (by decide)
  · exact absurd h (by decide)
  · exact absurd h (by decide)
  · injection h with h
    have h2 := congrArg (fun t => t.data.head?) h
    simp only [String.data_append] at h2
    simp at h2

/-! ## Empty input -/

/-- C2: `Calc` fails with "empty expression" exactly on the inputs that are
empty or consist of white space only. -/
theorem Calc_empty_expression_iff (T : UnicodeTables) (s : List Char) :
    Calc T s = fail "empty expression" ↔ ∀ c ∈ s, isSpace c = true := by
  constructor
  · intro h
    by_contra hne
    have htrim : trimSpace s ≠ [] := fun ht => hne ((trimSpace_eq_nil_iff s).mp ht)
    unfold Calc at h
    rw [if_neg htrim] at h
    split at h
    · rename_i e heq
      have he := tokenizeLoop_fault T s [] [] false e heq
      subst he
      exact absurd h (by decide)
    · split at h
      · split at h
        · exact absurd h (by decide)
        · split at h
          · exact absurd h (by decide)
          · exact not_isEvaluateFault_empty (evaluate_fault _ _ h)
      · exact absurd h (by decide)
  · intro h
    unfold Calc
    rw [if_pos ((trimSpace_eq_nil_iff s).mpr h)]

/-! ## Letters and decimal points -/

/-- C3: an input with a letter anywhere makes `Calc` fail with "invalid
token". -/
theorem Calc_letter (T : UnicodeTables) (s : List Char)
    (h : ∃ c ∈ s, isLetter T c = true) : Calc T s = fail "invalid token" := by
  obtain ⟨c, hmem, hc⟩ := h
  have htrim : trimSpace s ≠ [] := by
    intro ht
    have hsp := (trimSpace_eq_nil_iff s).mp ht c hmem
    rw [isLetter_not_space T c hc] at hsp
    exact absurd hsp (by decide)
  obtain ⟨pre, post, hs⟩ := List.append_of_mem hmem
  have htok : tokenize T s = fail "invalid token" := by
    rw [hs]
    exact tokenizeLoop_append_fail T (c :: post) (tokenizeLoop_letter T c hc post) pre [] [] false
  unfold Calc
  rw [if_neg htrim, htok]
  rfl

theorem Calc_letter_witness :
    (∃ c ∈ "2 + a".toList, isLetter latin1Tables c = true) ∧
      Calc latin1Tables "2 + a".toList = fail "invalid token" :=
  ⟨by decide, Calc_letter latin1Tables "2 + a".toList (by decide)⟩

theorem tokenizeLoop_dot_count (T : UnicodeTables) (s : List Char) (tokens : List Token)
    (cur : List Char) (dp : Bool) (ts : List Token)
    (h : tokenizeLoop T s tokens cur dp = Except.ok ts)
    (htok : ∀ t ∈ tokens, List.count '.' t ≤ 1) (hcur : List.count '.' cur ≤ 1)
    (hdp : dp = false → List.count '.' cur = 0) : ∀ t ∈ ts, List.count '.' t ≤ 1 := by
  induction s generalizing tokens cur dp with
  | nil =>
    simp only [tokenizeLoop] at h
    split at h
    · cases h
      intro t ht
      rcases List.mem_append.mp ht with h1 | h1
      · exact htok t h1
      · rw [List.mem_singleton.mp h1]; exact hcur
    · cases h
      exact htok
  | cons c rest ih =>
    have hflush : ∀ t ∈ tokens ++ [cur], List.count '.' t ≤ 1 := by
      intro t ht
      rcases List.mem_append.mp ht with h1 | h1
      · exact htok t h1
      · rw [List.mem_singleton.mp h1]; exact hcur
    have hone : List.count '.' [c] ≤ 1 := by
      rw [List.count_singleton]; split <;> omega
    simp only [tokenizeLoop, fail] at h
    split at h
    · split at h
      · exact ih _ _ _ h hflush (by simp) (by simp)
      · exact ih _ _ _ h htok hcur hdp
    · split at h
      · rename_i hdig
        have hne : c ≠ '.' := by
          intro hc
          rw [hc, isDigit_dot] at hdig
          exact absurd hdig (by decide)
        have hcount : List.count '.' (cur ++ [c]) = List.count '.' cur := by
          rw [List.count_append, List.count_singleton]
          simp [hne]
        exact ih _ _ _ h htok (by rw [hcount]; exact hcur) (by rw [hcount]; exact hdp)
      · split at h
        · split at h
          · cases h
          · rename_i hc hdpf
            have hdp0 : List.count '.' cur = 0 := hdp (by simpa using hdpf)
            have hcount : List.count '.' (cur ++ [c]) = 1 := by
              rw [List.count_append, List.count_singleton, hdp0]
              simp [hc]
            exact ih _ _ _ h htok (by rw [hcount]) (by intro hx; cases hx)
        · split at h
          · cases h
          · split at h
            · refine ih _ _ _ h ?_ (by simp) (by simp)
              intro t ht
              rcases List.mem_append.mp ht with h1 | h1
              · exact hflush t h1
              · rw [List.mem_singleton.mp h1]; exact hone
            · refine ih _ _ _ h ?_ hcur hdp
              intro t ht
              rcases List.mem_append.mp ht with h1 | h1
              · exact htok t h1
              · rw [List.mem_singleton.mp h1]; exact hone

/-- C4: two decimal points in one numeric literal make `Calc` fail with
"invalid token", and every token that `tokenize` returns has at most one
decimal point. -/
theorem Calc_two_decimal_points (T : UnicodeTables) :
    (∀ pre mid post : List Char, (∀ c ∈ mid, isDigit T c = true ∨ c = '.') →
      Calc T (pre ++ '.' :: (mid ++ '.' :: post)) = fail "invalid token") ∧
    (∀ (s : List Char) (ts : List Token), tokenize T s = Except.ok ts →
      ∀ t ∈ ts, List.count '.' t ≤ 1) := by
  constructor
  · intro pre mid post hmid
    have htrim : trimSpace (pre ++ '.' :: (mid ++ '.' :: post)) ≠ [] := by
      intro ht
      have hsp := (trimSpace_eq_nil_iff _).mp ht '.' (by simp)
      exact absurd hsp (by decide)
    have htok : tokenize T (pre ++ '.' :: (mid ++ '.' :: post)) = fail "invalid token" :=
      tokenizeLoop_append_fail T _ (tokenizeLoop_two_dots T mid post hmid) pre [] [] false
    unfold Calc
    rw [if_neg htrim, htok]
    rfl
  · intro s ts h
    exact tokenizeLoop_dot_count T s [] [] false ts h (by simp) (by simp) (by simp)

theorem Calc_two_decimal_points_witness :
    Calc latin1Tables "2.5.6 + 1".toList = fail "invalid token" ∧
      (∀ t ∈ [['1', '.', '5'], ['+'], ['2', '.', '5']], List.count '.' t ≤ 1) :=
  ⟨(Calc_two_decimal_points latin1Tables).1 ['2'] ['5'] "6 + 1".toList (by decide),
   (Calc_two_decimal_points latin1Tables).2 "1.5 + 2.5".toList _ (by decide)⟩

/-! ## The structural checks of `Calc` -/

theorem tokenizeLoop_spaces (T : UnicodeTables) (s : List Char)
    (h : ∀ c ∈ s, isSpace c = true) (tokens : List Token) (dp : Bool) :
    tokenizeLoop T s tokens [] dp = Except.ok tokens := by
  induction s with
  | nil => rfl
  | cons c rest ih =>
    simp only [tokenizeLoop, h c (List.mem_cons_self _ _), if_true, List.length_nil,
      gt_iff_lt, Nat.lt_irrefl, if_false]
    exact ih (fun d hd => h d (List.mem_cons_of_mem _ hd))

/-- An input that yields at least one token is not blank. -/
theorem trimSpace_ne_nil_of_tokens (T : UnicodeTables) (s : List Char) (ts : List Token)
    (h : tokenize T s = Except.ok ts) (hts : ts ≠ []) : trimSpace s ≠ [] := by
  intro ht
  have hsp := tokenizeLoop_spaces T s ((trimSpace_eq_nil_iff s).mp ht) [] false
  unfold tokenize at h
  rw [hsp] at h
  cases h
  exact hts rfl

/-- What `Calc` does once the token sequence is known, with its first and its
last token. -/
theorem Calc_of_tokens (T : UnicodeTables) (s : List Char) (ts : List Token)
    (first last : Token) (h : tokenize T s = Except.ok ts) (hfirst : ts.head? = some first)
    (hlast : ts.getLast? = some last) :
    Calc T s =
      if isOperator first || isOperator last then fail "invalid expression"
      else if consecutiveOperators ts then fail "invalid expression: consecutive operators"
      else evaluate ts := by
  have hts : ts ≠ [] := by
    intro hnil
    rw [hnil] at hfirst
    cases hfirst
  unfold Calc
  rw [if_neg (trimSpace_ne_nil_of_tokens T s ts h hts), h]
  simp only [hfirst, hlast]

theorem consecutiveOperators_of_adjacent (pre : List Token) (a b : Token) (post : List Token)
    (ha : isOperator a = true) (hb : isOperator b = true) :
    consecutiveOperators (pre ++ a :: b :: post) = true := by
  induction pre with
  | nil => simp [consecutiveOperators, ha, hb]
  | cons x pre ih =>
    cases hp : pre ++ a :: b :: post with
    | nil => simp at hp
    | cons y rest =>
      rw [hp] at ih
      simp [hp, consecutiveOperators, ih]

theorem getLast?_isSome_of_head? {α : Type} (l : List α) (x : α) (h : l.head? = some x) :
    ∃ y, l.getLast? = some y := by
  cases l with
  | nil => cases h
  | cons a t => exact ⟨_, List.getLast?_eq_getLast _ (List.cons_ne_nil a t)⟩

theorem head?_isSome_of_getLast? {α : Type} (l : List α) (x : α) (h : l.getLast? = some x) :
    ∃ y, l.head? = some y := by
  cases l with
  | nil => cases h
  | cons a t => exact ⟨a, rfl⟩

/-- C5: when the first or the last token is a binary operator, `Calc` fails
with "invalid expression". A parenthesis is not an operator, and when neither
boundary token is an operator the boundary check passes: the outcome is that
of the adjacency check and of `evaluate`. -/
theorem Calc_boundary_operator (T : UnicodeTables) (s : List Char) (ts : List Token)
    (h : tokenize T s = Except.ok ts) :
    (((∃ first, ts.head? = some first ∧ isOperator first = true) ∨
        (∃ last, ts.getLast? = some last ∧ isOperator last = true)) →
      Calc T s = fail "invalid expression") ∧
    (isOperator ['('] = false ∧ isOperator [')'] = false) ∧
    (∀ first last, ts.head? = some first → ts.getLast? = some last →
      isOperator first = false → isOperator last = false →
      Calc T s =
        if consecutiveOperators ts then fail "invalid expression: consecutive operators"
        else evaluate ts) := by
  refine ⟨?_, ⟨by decide, by decide⟩, ?_⟩
  · intro hb
    rcases hb with ⟨first, hfirst, hop⟩ | ⟨last, hlast, hop⟩
    · obtain ⟨last, hlast⟩ := getLast?_isSome_of_head? ts first hfirst
      rw [Calc_of_tokens T s ts first last h hfirst hlast, hop]
      rfl
    · obtain ⟨first, hfirst⟩ := head?_isSome_of_getLast? ts last hlast
      rw [Calc_of_tokens T s ts first last h hfirst hlast, hop, Bool.or_true]
      rfl
  · intro first last hfirst hlast hf hl
    rw [Calc_of_tokens T s ts first last h hfirst hlast, hf, hl]
    rfl

theorem Calc_boundary_operator_witness :
    Calc latin1Tables "+ 2 + 3".toList = fail "invalid expression" ∧
      Calc latin1Tables "2 + 3 +".toList = fail "invalid expression" ∧
      Calc latin1Tables "(2 + 3) * (4)".toList = Except.ok (F64.ofDecimal 20 0) :=
  ⟨(Calc_boundary_operator latin1Tables "+ 2 + 3".toList
      [['+'], ['2'], ['+'], ['3']] (by decide)).1
      (Or.inl ⟨['+'], by decide, by decide⟩),
   (Calc_boundary_operator latin1Tables "2 + 3 +".toList
      [['2'], ['+'], ['3'], ['+']] (by decide)).1
      (Or.inr ⟨['+'], by decide, by decide⟩),
   ((Calc_boundary_operator latin1Tables "(2 + 3) * (4)".toList
      [['('], ['2'], ['+'], ['3'], [')'], ['*'], ['('], ['4'], [')']] (by decide)).2.2
      ['('] [')'] (by decide) (by decide) (by decide) (by decide)).trans (by decide!)⟩

/-- C6: two adjacent operator tokens make `Calc` fail, and with
"invalid expression: consecutive operators" when neither the first nor the
last token is an operator. -/
theorem Calc_consecutive_operators (T : UnicodeTables) (s : List Char) (ts : List Token)
    (h : tokenize T s = Except.ok ts)
    (hadj : ∃ pre a b post, ts = pre ++ a :: b :: post ∧
      isOperator a = true ∧ isOperator b = true) :
    (∃ msg, Calc T s = fail msg) ∧
    (∀ first last, ts.head? = some first → ts.getLast? = some last →
      isOperator first = false → isOperator last = false →
      Calc T s = fail "invalid expression: consecutive operators") := by
  obtain ⟨pre, a, b, post, hts, ha, hb⟩ := hadj
  have hcons : consecutiveOperators ts = true := by
    rw [hts]
    exact consecutiveOperators_of_adjacent pre a b post ha hb
  have hsecond : ∀ first last, ts.head? = some first → ts.getLast? = some last →
      isOperator first = false → isOperator last = false →
      Calc T s = fail "invalid expression: consecutive operators" := by
    intro first last hfirst hlast hf hl
    rw [Calc_of_tokens T s ts first last h hfirst hlast, hf, hl, hcons]
    rfl
  refine ⟨?_, hsecond⟩
  have hne : ts ≠ [] := by
    rw [hts]
    simp
  obtain ⟨first, hfirst⟩ : ∃ first, ts.head? = some first := by
    cases ts with
    | nil => exact absurd rfl hne
    | cons x t => exact ⟨x, rfl⟩
  obtain ⟨last, hlast⟩ := getLast?_isSome_of_head? ts first hfirst
  by_cases hb : (isOperator first || isOperator last) = true
  · refine ⟨"invalid expression", ?_⟩
    rw [Calc_of_tokens T s ts first last h hfirst hlast, hb]
    rfl
  · rw [Bool.not_eq_true, Bool.or_eq_false_iff] at hb
    exact ⟨_, hsecond first last hfirst hlast hb.1 hb.2⟩

theorem Calc_consecutive_operators_witness :
    (∃ msg, Calc latin1Tables "2 ++ 3".toList = fail msg) ∧
      Calc latin1Tables "2 ++ 3".toList = fail "invalid expression: consecutive operators" :=
  ⟨(Calc_consecutive_operators latin1Tables "2 ++ 3".toList
      [['2'], ['+'], ['+'], ['3']] (by decide)
      ⟨[['2']], ['+'], ['+'], [['3']], by decide, by decide, by decide⟩).1,
   (Calc_consecutive_operators latin1Tables "2 ++ 3".toList
      [['2'], ['+'], ['+'], ['3']] (by decide)
      ⟨[['2']], ['+'], ['+'], [['3']], by decide, by decide, by decide⟩).2
      ['2'] ['3'] (by decide) (by decide) (by decide) (by decide)⟩

/-! ## The tokenizer on a concatenation -/

/-- The tokens already emitted are only ever appended to. -/
theorem tokenizeLoop_tokens (T : UnicodeTables) (s : List Char) (tokens : List Token)
    (cur : List Char) (dp : Bool) :
    tokenizeLoop T s tokens cur dp =
      match tokenizeLoop T s [] cur dp with
      | Except.error e => Except.error e
      | Except.ok ts => Except.ok (tokens ++ ts) := by
  induction s generalizing tokens cur dp with
  | nil =>
    simp only [tokenizeLoop]
    split <;> simp
  | cons c rest ih =>
    simp only [tokenizeLoop, fail]
    split
    · split
      · rw [ih (tokens ++ [cur]), ih ([] ++ [cur])]
        cases tokenizeLoop T rest [] [] false <;> simp
      · exact ih _ _ _
    · split
      · exact ih _ _ _
      · split
        · split
          · rfl
          · exact ih _ _ _
        · split
          · rfl
          · split
            · rw [ih (tokens ++ [cur] ++ [[c]]), ih ([] ++ [cur] ++ [[c]])]
              cases tokenizeLoop T rest [] [] false <;> simp
            · rw [ih (tokens ++ [[c]]), ih ([] ++ [[c]])]
              cases tokenizeLoop T rest [] cur dp <;> simp

/-- A rune that is neither white space, a digit, a decimal point nor a letter
ends the token before it and is a token of its own. -/
theorem tokenizeLoop_append_other (T : UnicodeTables) (c : Char) (hsp : isSpace c = false)
    (hdig : isDigit T c = false) (hdot : c ≠ '.') (hlet : isLetter T c = false)
    (s t : List Char) (tokens : List Token) (cur : List Char) (dp : Bool)
    (hstate : cur = [] → dp = false) :
    tokenizeLoop T (s ++ c :: t) tokens cur dp =
      match tokenizeLoop T s tokens cur dp with
      | Except.error e => Except.error e
      | Except.ok ts => tokenizeLoop T t (ts ++ [[c]]) [] false := by
  induction s generalizing tokens cur dp with
  | nil =>
    simp only [List.nil_append, tokenizeLoop, hsp, hdig, hdot, hlet]
    by_cases hcur : cur.length > 0
    · simp [hcur]
    · have hnil : cur = [] := List.length_eq_zero.mp (by omega)
      simp [hnil, hstate hnil]
  | cons d rest ih =>
    simp only [List.cons_append, tokenizeLoop, fail]
    split
    · split
      · exact ih _ _ _ (fun _ => rfl)
      · exact ih _ _ _ hstate
    · split
      · exact ih _ _ _ (fun hx => absurd hx (by simp))
      · split
        · split
          · rfl
          · exact ih _ _ _ (fun hx => absurd hx (by simp))
        · split
          · rfl
          · split
            · exact ih _ _ _ (fun _ => rfl)
            · exact ih _ _ _ hstate

theorem isDigit_of_ascii (T : UnicodeTables) (c : Char)
    (h : (0x30 ≤ c.toNat && c.toNat ≤ 0x39) = true) : isDigit T c = true := by
  have h1 : c.toNat ≤ 0xFF := by
    simp only [Bool.and_eq_true, decide_eq_true_eq] at h
    omega
  simp only [isDigit, h1, if_true]
  exact h

/-- The runes of a numeric literal are gathered into one token. -/
theorem tokenizeLoop_literal (T : UnicodeTables) (z : List Char) (tokens : List Token)
    (cur : List Char) (dp : Bool)
    (hz : ∀ c ∈ z, ((0x30 ≤ c.toNat && c.toNat ≤ 0x39) || c == '.') = true)
    (hdots : (if dp then 0 else 1) ≥ List.count '.' z) (hne : cur ++ z ≠ []) :
    tokenizeLoop T z tokens cur dp = Except.ok (tokens ++ [cur ++ z]) := by
  induction z generalizing cur dp with
  | nil =>
    have hcur : cur.length > 0 := by
      cases cur with
      | nil => simp at hne
      | cons a t => simp
    simp [tokenizeLoop, hcur]
  | cons c rest ih =>
    have hrest : ∀ d ∈ rest, ((0x30 ≤ d.toNat && d.toNat ≤ 0x39) || d == '.') = true :=
      fun d hd => hz d (List.mem_cons_of_mem _ hd)
    have hc := hz c (List.mem_cons_self _ _)
    by_cases hdot : c = '.'
    · subst hdot
      cases dp with
      | true => simp at hdots
      | false =>
        simp only [tokenizeLoop, isSpace_dot, isDigit_dot]
        simp only [Bool.false_eq_true, if_false, if_true]
        rw [ih (cur ++ ['.']) true hrest (by simpa using hdots) (by simp)]
        simp
    · have hdig : isDigit T c = true := by
        apply isDigit_of_ascii
        simpa [hdot] using hc
      have hcount : List.count '.' (c :: rest) = List.count '.' rest := by
        rw [List.count_cons]
        simp [hdot]
      simp only [tokenizeLoop, isDigit_not_space T c hdig, hdig]
      simp only [Bool.false_eq_true, if_false, if_true]
      rw [ih (cur ++ [c]) dp hrest (by rw [← hcount]; exact hdots) (by simp)]
      simp

/-! ## The evaluator on longer inputs and deeper stacks -/

/-- The numbers `applyOperation` leaves depend on the top operator only. -/
theorem applyOperation_cons (numbers : List F64) (top : Token) (rest : List Token) :
    applyOperation numbers (top :: rest) =
      match applyOperation numbers [top] with
      | Except.error e => Except.error e
      | Except.ok (numbers1, _) => Except.ok (numbers1, rest) := by
  unfold applyOperation
  split
  · simp only
    split <;> rfl
  · rfl

theorem evaluateLoop_append (ts1 ts2 : List Token) (numbers : List F64)
    (operators : List Token) :
    evaluateLoop (ts1 ++ ts2) numbers operators =
      match evaluateLoop ts1 numbers operators with
      | Except.error e => Except.error e
      | Except.ok (numbers1, operators1) => evaluateLoop ts2 numbers1 operators1 := by
  induction ts1 generalizing numbers operators with
  | nil => rfl
  | cons token rest ih =>
    simp only [List.cons_append, evaluateLoop, fail]
    split
    · split
      · rfl
      · exact ih _ _
    · split
      · exact ih _ _
      · split
        · split
          · rfl
          · split
            · rfl
            · split
              · rfl
              · exact ih _ _
        · split
          · rfl
          · exact ih _ _

/-- A reduction loop that stops at `(` runs the same way above an open
parenthesis as on its own. -/
theorem reduceWhile_extend (cond : Token → Bool) (hcond : cond ['('] = false)
    (numbers : List F64) (operators : List Token) (numbers1 : List F64)
    (operators1 : List Token) (base : List Token)
    (h : reduceWhile cond numbers operators = Except.ok (numbers1, operators1)) :
    reduceWhile cond numbers (operators ++ ['('] :: base) =
      Except.ok (numbers1, operators1 ++ ['('] :: base) := by
  induction operators generalizing numbers with
  | nil =>
    simp only [reduceWhile] at h
    cases h
    simp [reduceWhile, hcond]
  | cons top rest ih =>
    simp only [reduceWhile] at h
    simp only [List.cons_append, reduceWhile]
    split at h
    · rename_i hc
      rw [if_pos hc]
      rw [applyOperation_cons] at h
      rw [applyOperation_cons]
      split at h
      · cases h
      · rename_i numbers2 operators2 heq
        cases happ : applyOperation numbers [top] with
        | error e => rw [happ] at heq; simp at heq
        | ok r =>
          obtain ⟨numbers3, operators3⟩ := r
          rw [happ] at heq
          cases heq
          exact ih _ h
    · rename_i hc
      rw [if_neg hc]
      cases h
      rfl

/-- The main loop runs the same way above an open parenthesis as on its own,
as long as it does not fail. -/
theorem evaluateLoop_extend (tokens : List Token) (numbers : List F64)
    (operators : List Token) (numbers1 : List F64) (operators1 : List Token)
    (base : List Token)
    (h : evaluateLoop tokens numbers operators = Except.ok (numbers1, operators1)) :
    evaluateLoop tokens numbers (operators ++ ['('] :: base) =
      Except.ok (numbers1, operators1 ++ ['('] :: base) := by
  induction tokens generalizing numbers operators with
  | nil =>
    simp only [evaluateLoop] at h
    cases h
    rfl
  | cons token rest ih =>
    simp only [evaluateLoop, fail] at h
    simp only [evaluateLoop, fail]
    split at h
    · rename_i hop
      rw [if_pos hop]
      split at h
      · cases h
      · rename_i numbers2 operators2 heq
        have hcond : (fun top => decide (precedence top ≥ precedence token)) ['('] = false := by
          rcases hop with hop | hop | hop | hop <;> subst hop <;> decide
        rw [reduceWhile_extend _ hcond _ _ _ _ base heq]
        simp only
        exact ih _ _ h
    · rename_i hop
      rw [if_neg hop]
      split at h
      · rename_i hopen
        rw [if_pos hopen]
        exact ih _ _ h
      · rename_i hopen
        rw [if_neg hopen]
        split at h
        · rename_i hclose
          rw [if_pos hclose]
          split at h
          · cases h
          · rename_i numbers2 operators2 heq
            rw [reduceWhile_extend _ (by decide) _ _ _ _ base heq]
            simp only
            split at h
            · cases h
            · rename_i top operators3
              simp only [List.cons_append]
              split at h
              · cases h
              · rename_i htop
                rw [if_neg htop]
                exact ih _ _ h
        · rename_i hclose
          rw [if_neg hclose]
          split at h
          · cases h
          · exact ih _ _ h

/-- The final loop fails on the open parenthesis under the operators it can
apply. -/
theorem drainOperators_extend (numbers : List F64) (operators : List Token)
    (r : List F64 × List Token) (base : List Token)
    (h : drainOperators numbers operators = Except.ok r) :
    drainOperators numbers (operators ++ ['('] :: base) = fail "mismatched parentheses" := by
  induction operators generalizing numbers with
  | nil => simp [drainOperators]
  | cons top rest ih =>
    simp only [drainOperators, fail] at h
    simp only [List.cons_append, drainOperators, fail]
    split at h
    · cases h
    · rename_i htop
      rw [if_neg htop]
      rw [applyOperation_cons] at h
      rw [applyOperation_cons]
      cases happ : applyOperation numbers [top] with
      | error e => rw [happ] at h; simp at h
      | ok p =>
        rw [happ] at h
        simp only at h
        simp only
        exact ih _ h

/-- Where the final loop succeeds, the loop of `)` applies the same
operators and empties the operator stack. -/
theorem reduceWhile_of_drainOperators (numbers : List F64) (operators : List Token)
    (numbers1 : List F64) (operators1 : List Token)
    (h : drainOperators numbers operators = Except.ok (numbers1, operators1)) :
    reduceWhile (fun top => decide (top ≠ ['('])) numbers operators =
      Except.ok (numbers1, []) := by
  induction operators generalizing numbers with
  | nil =>
    simp only [drainOperators] at h
    cases h
    rfl
  | cons top rest ih =>
    simp only [drainOperators, fail] at h
    simp only [reduceWhile]
    split at h
    · cases h
    · rename_i htop
      simp only [htop, ne_eq, not_false_eq_true, decide_True, if_true]
      split at h
      · cases h
      · exact ih _ h

/-- Where the final loop succeeds, any reduction loop succeeds, and the final
loop from where it stops gives the same numbers. -/
theorem reduceWhile_then_drainOperators (cond : Token → Bool) (numbers : List F64)
    (operators : List Token) (numbers1 : List F64) (operators1 : List Token)
    (h : drainOperators numbers operators = Except.ok (numbers1, operators1)) :
    ∃ numbers2 operators2 operators3,
      reduceWhile cond numbers operators = Except.ok (numbers2, operators2) ∧
      drainOperators numbers2 operators2 = Except.ok (numbers1, operators3) := by
  induction operators generalizing numbers with
  | nil => exact ⟨numbers, [], operators1, rfl, h⟩
  | cons top rest ih =>
    simp only [reduceWhile]
    by_cases hc : cond top = true
    · rw [if_pos hc]
      simp only [drainOperators, fail] at h
      split at h
      · cases h
      · split at h
        · cases h
        · exact ih _ h
    · rw [if_neg hc]
      exact ⟨numbers, top :: rest, operators1, rfl, h⟩

theorem drainOperators_numbers_ne_nil (numbers : List F64) (operators : List Token)
    (numbers1 : List F64) (operators1 : List Token)
    (h : drainOperators numbers operators = Except.ok (numbers1, operators1))
    (hne : numbers1 ≠ []) : numbers ≠ [] := by
  intro hnil
  subst hnil
  cases operators with
  | nil =>
    simp only [drainOperators] at h
    cases h
    exact hne rfl
  | cons top rest =>
    simp only [drainOperators, fail, applyOperation] at h
    split at h <;> cases h

/-! ## What a successful call has gone through -/

theorem Calc_ok_inv (T : UnicodeTables) (s : List Char) (v : F64)
    (h : Calc T s = Except.ok v) :
    ∃ ts first last, tokenize T s = Except.ok ts ∧ ts.head? = some first ∧
      ts.getLast? = some last ∧ isOperator first = false ∧ isOperator last = false ∧
      consecutiveOperators ts = false ∧ evaluate ts = Except.ok v := by
  unfold Calc at h
  simp only [fail] at h
  split at h
  · cases h
  · split at h
    · cases h
    · rename_i ts hts
      split at h
      · rename_i first last hfirst hlast
        split at h
        · cases h
        · rename_i hb
          split at h
          · cases h
          · rename_i hc
            rw [Bool.not_eq_true, Bool.or_eq_false_iff] at hb
            exact ⟨ts, first, last, hts, hfirst, hlast, hb.1, hb.2, by simpa using hc, h⟩
      · cases h

theorem evaluate_ok_inv (tokens : List Token) (v : F64) (h : evaluate tokens = Except.ok v) :
    ∃ numbers operators operators1,
      evaluateLoop tokens [] [] = Except.ok (numbers, operators) ∧
      drainOperators numbers operators = Except.ok ([v], operators1) := by
  unfold evaluate at h
  simp only [fail] at h
  split at h
  · cases h
  · rename_i numbers operators hloop
    split at h
    · cases h
    · rename_i numbers1 operators1 hdrain
      split at h
      · cases h
        exact ⟨numbers, operators, operators1, hloop, hdrain⟩
      · cases h

theorem consecutiveOperators_cons (a : Token) (xs : List Token) (ha : isOperator a = false) :
    consecutiveOperators (a :: xs) = consecutiveOperators xs := by
  cases xs with
  | nil => rfl
  | cons y ys => simp [consecutiveOperators, ha]

theorem consecutiveOperators_concat (xs : List Token) (a : Token)
    (h : isOperator a = false ∨ ∀ l, xs.getLast? = some l → isOperator l = false) :
    consecutiveOperators (xs ++ [a]) = consecutiveOperators xs := by
  induction xs with
  | nil => rfl
  | cons x xs ih =>
    cases xs with
    | nil =>
      have hxa : (isOperator x && isOperator a) = false := by
        rcases h with h | h
        · simp [h]
        · simp [h x rfl]
      simp [consecutiveOperators, hxa]
    | cons y ys =>
      have ih1 := ih (by
        rcases h with h | h
        · exact Or.inl h
        · refine Or.inr (fun l hl => h l ?_)
          rw [List.getLast?_cons_cons]
          exact hl)
      exact congrArg (fun b => (isOperator x && isOperator y) || b) ih1

theorem getLast?_cons_of_head? {α : Type} (a : α) (l : List α) (x : α)
    (h : l.head? = some x) : (a :: l).getLast? = l.getLast? := by
  cases l with
  | nil => cases h
  | cons b t => exact List.getLast?_cons_cons

theorem head?_append_of_head? {α : Type} (l m : List α) (x : α) (h : l.head? = some x) :
    (l ++ m).head? = some x := by
  cases l with
  | nil => cases h
  | cons b t => exact h

/-! ## Parentheses that do not match -/

/-- C7: an input on which `Calc` succeeds fails with "mismatched parentheses"
once an opening parenthesis is put in front of it or a closing parenthesis
behind it. -/
theorem Calc_extra_parenthesis (T : UnicodeTables) (e : List Char) (v : F64)
    (h : Calc T e = Except.ok v) :
    Calc T ('(' :: e) = fail "mismatched parentheses" ∧
    Calc T (e ++ [')']) = fail "mismatched parentheses" := by
  obtain ⟨ts, first, last, hts, hfirst, hlast, hf, hl, hc, hev⟩ := Calc_ok_inv T e v h
  obtain ⟨numbers, operators, operators1, hloop, hdrain⟩ := evaluate_ok_inv ts v hev
  constructor
  · have htok : tokenize T ('(' :: e) = Except.ok (['('] :: ts) := by
      have h1 : tokenize T ('(' :: e) = tokenizeLoop T e [['(']] [] false := by
        simp [tokenize, tokenizeLoop, isDigit, isLetter, latin1Letter, isSpace]
      rw [h1, tokenizeLoop_tokens]
      unfold tokenize at hts
      rw [hts]
      rfl
    rw [Calc_of_tokens T ('(' :: e) (['('] :: ts) ['('] last htok rfl
      ((getLast?_cons_of_head? _ ts first hfirst).trans hlast)]
    rw [hl, consecutiveOperators_cons _ _ (by decide), hc]
    simp only [Bool.or_false, Bool.false_eq_true, if_false]
    have hloop1 : evaluateLoop (['('] :: ts) [] [] = Except.ok (numbers, operators ++ [['(']]) := by
      have h2 := evaluateLoop_extend ts [] [] numbers operators [] hloop
      simpa [evaluateLoop] using h2
    unfold evaluate
    rw [hloop1]
    simp only
    rw [drainOperators_extend numbers operators _ [] hdrain]
    rfl
  · have htok : tokenize T (e ++ [')']) = Except.ok (ts ++ [[')']]) := by
      unfold tokenize
      rw [tokenizeLoop_append_other T ')' (by decide) (by simp [isDigit]) (by decide)
        (by simp [isLetter, latin1Letter]) e [] [] [] false (fun _ => rfl)]
      unfold tokenize at hts
      rw [hts]
      rfl
    rw [Calc_of_tokens T (e ++ [')']) (ts ++ [[')']]) first [')'] htok
      (head?_append_of_head? ts _ first hfirst) (by simp)]
    rw [hf, consecutiveOperators_concat ts [')'] (Or.inl (by decide)), hc]
    simp only [Bool.or_false, Bool.false_eq_true, if_false]
    have hfalse : isOperator [')'] = false := by decide
    simp only [hfalse, Bool.false_eq_true, if_false]
    unfold evaluate
    rw [evaluateLoop_append, hloop]
    simp only [evaluateLoop, fail]
    rw [reduceWhile_of_drainOperators numbers operators _ _ hdrain]
    simp

theorem Calc_extra_parenthesis_witness :
    Calc latin1Tables "(2 + 3".toList = fail "mismatched parentheses" ∧
      Calc latin1Tables "2 + 3)".toList = fail "mismatched parentheses" :=
  Calc_extra_parenthesis latin1Tables "2 + 3".toList (F64.ofDecimal 5 0) (by decide!)

/-! ## Open parentheses on the operator stack -/

theorem reduceWhile_count (cond : Token → Bool) (hcond : ∀ t, cond t = true → t ≠ ['('])
    (numbers : List F64) (operators : List Token) (numbers1 : List F64)
    (operators1 : List Token)
    (h : reduceWhile cond numbers operators = Except.ok (numbers1, operators1)) :
    List.count ['('] operators1 = List.count ['('] operators := by
  induction operators generalizing numbers with
  | nil =>
    simp only [reduceWhile] at h
    cases h
    rfl
  | cons top rest ih =>
    simp only [reduceWhile] at h
    split at h
    · rename_i hc
      split at h
      · cases h
      · rw [ih _ h, List.count_cons_of_ne (Ne.symm (hcond top hc))]
    · cases h
      rfl

theorem drainOperators_count (numbers : List F64) (operators : List Token)
    (numbers1 : List F64) (operators1 : List Token)
    (h : drainOperators numbers operators = Except.ok (numbers1, operators1)) :
    List.count ['('] operators = 0 := by
  induction operators generalizing numbers with
  | nil => rfl
  | cons top rest ih =>
    simp only [drainOperators, fail] at h
    split at h
    · cases h
    · rename_i htop
      split at h
      · cases h
      · rw [List.count_cons_of_ne (Ne.symm htop)]
        exact ih _ h

/-- The open parentheses on the operator stack count the nesting depth of the
tokens read. -/
theorem evaluateLoop_parenDepth (tokens : List Token) (numbers : List F64)
    (operators : List Token) (numbers1 : List F64) (operators1 : List Token)
    (h : evaluateLoop tokens numbers operators = Except.ok (numbers1, operators1)) :
    parenDepth (List.count ['('] operators) tokens = some (List.count ['('] operators1) := by
  induction tokens generalizing numbers operators with
  | nil =>
    simp only [evaluateLoop] at h
    cases h
    rfl
  | cons token rest ih =>
    simp only [evaluateLoop, fail] at h
    simp only [parenDepth]
    split at h
    · rename_i hop
      have h1 : token ≠ ['('] := by
        rcases hop with hop | hop | hop | hop <;> subst hop <;> decide
      have h2 : token ≠ [')'] := by
        rcases hop with hop | hop | hop | hop <;> subst hop <;> decide
      rw [if_neg h1, if_neg h2]
      split at h
      · cases h
      · rename_i numbers2 operators2 heq
        have hcount := reduceWhile_count _ (by
          intro t ht
          intro ht
          subst ht
          rcases hop with hop | hop | hop | hop <;> subst hop <;> revert ht <;> decide)
          _ _ _ _ heq
        have h3 := ih _ _ h
        rw [List.count_cons_of_ne (Ne.symm h1), hcount] at h3
        exact h3
    · split at h
      · rename_i hopen
        rw [if_pos hopen]
        have h3 := ih _ _ h
        rw [hopen, List.count_cons_self] at h3
        exact h3
      · rename_i hopen
        rw [if_neg hopen]
        split at h
        · rename_i hclose
          rw [if_pos hclose]
          split at h
          · cases h
          · rename_i numbers2 operators2 heq
            have hcount := reduceWhile_count _ (by
              intro t ht
              simpa using ht) _ _ _ _ heq
            split at h
            · cases h
            · rename_i top operators3
              split at h
              · cases h
              · rename_i htop
                have htop1 : top = ['('] := by simpa using htop
                subst htop1
                rw [List.count_cons_self] at hcount
                have h3 := ih _ _ h
                rw [← hcount]
                simp only [Nat.add_one_ne_zero, if_false, Nat.add_sub_cancel]
                exact h3
        · rename_i hclose
          rw [if_neg hclose]
          split at h
          · cases h
          · exact ih _ _ h

/-- C8: on a token sequence with unbalanced parentheses `Calc` returns no
value: it fails with an error. -/
theorem Calc_unbalanced (T : UnicodeTables) (s : List Char) (ts : List Token)
    (h : tokenize T s = Except.ok ts) (hunb : balanced ts = false) :
    ∃ msg, Calc T s = fail msg := by
  have hne : ts ≠ [] := by
    intro hnil
    subst hnil
    exact absurd hunb (by decide)
  obtain ⟨first, hfirst⟩ : ∃ first, ts.head? = some first := by
    cases ts with
    | nil => exact absurd rfl hne
    | cons x t => exact ⟨x, rfl⟩
  obtain ⟨last, hlast⟩ := getLast?_isSome_of_head? ts first hfirst
  rw [Calc_of_tokens T s ts first last h hfirst hlast]
  split
  · exact ⟨_, rfl⟩
  · split
    · exact ⟨_, rfl⟩
    · cases hev : evaluate ts with
      | error e =>
        rcases evaluate_fault ts e hev with h1 | h1 | h1 | h1 | h1 | ⟨token, h1⟩ <;>
          exact ⟨_, by rw [h1]; rfl⟩
      | ok v =>
        exfalso
        obtain ⟨numbers, operators, operators1, hloop, hdrain⟩ := evaluate_ok_inv ts v hev
        have hdepth := evaluateLoop_parenDepth ts [] [] numbers operators hloop
        rw [drainOperators_count _ _ _ _ hdrain] at hdepth
        simp only [balanced, List.count_nil] at hunb hdepth
        rw [hdepth] at hunb
        exact absurd hunb (by decide)

theorem Calc_unbalanced_witness :
    balanced [['('], ['2'], ['+'], ['3'], [')'], [')']] = false ∧
      ∃ msg, Calc latin1Tables "(2 + 3))".toList = fail msg :=
  ⟨by decide, Calc_unbalanced latin1Tables "(2 + 3))".toList
    [['('], ['2'], ['+'], ['3'], [')'], [')']] (by decide) (by decide)⟩

/-! ## Numeric literals as tokens -/

theorem isLiteralText_inv (z : List Char) (hz : isLiteralText z = true) :
    z ≠ [] ∧ (∀ c ∈ z, ((0x30 ≤ c.toNat && c.toNat ≤ 0x39) || c == '.') = true) ∧
      List.count '.' z ≤ 1 := by
  unfold isLiteralText at hz
  simp only [Bool.and_eq_true, Bool.not_eq_true', List.isEmpty_eq_false, List.all_eq_true,
    decide_eq_true_eq] at hz
  exact ⟨hz.1.1, hz.1.2, hz.2⟩

/-- A numeric literal is not one of the runes that are tokens of their own. -/
theorem literal_ne_singleton (z : List Char) (hz : isLiteralText z = true) (c : Char)
    (hc : ((0x30 ≤ c.toNat && c.toNat ≤ 0x39) || c == '.') = false) : z ≠ [c] := by
  intro h
  subst h
  have h1 := (isLiteralText_inv _ hz).2.1 c (List.mem_singleton.mpr rfl)
  rw [hc] at h1
  exact absurd h1 (by decide)

theorem isOperator_literal (z : List Char) (hz : isLiteralText z = true) :
    isOperator z = false := by
  have h1 := literal_ne_singleton z hz '+' (by decide)
  have h2 := literal_ne_singleton z hz '-' (by decide)
  have h3 := literal_ne_singleton z hz '*' (by decide)
  have h4 := literal_ne_singleton z hz '/' (by decide)
  simp [isOperator, h1, h2, h3, h4]

theorem tokenize_literal (T : UnicodeTables) (z : List Char) (hz : isLiteralText z = true)
    (tokens : List Token) :
    tokenizeLoop T z tokens [] false = Except.ok (tokens ++ [z]) := by
  obtain ⟨hne, hall, hcount⟩ := isLiteralText_inv z hz
  have h := tokenizeLoop_literal T z tokens [] false hall (by simpa using hcount)
    (by simpa using hne)
  simpa using h

/-- The step of the main loop on a numeric literal. -/
theorem evaluateLoop_literal (z : List Char) (hz : isLiteralText z = true) (b : F64)
    (hparse : parseFloat z = some b) (rest : List Token) (numbers : List F64)
    (operators : List Token) :
    evaluateLoop (z :: rest) numbers operators = evaluateLoop rest (b :: numbers) operators := by
  have h1 := literal_ne_singleton z hz '+' (by decide)
  have h2 := literal_ne_singleton z hz '-' (by decide)
  have h3 := literal_ne_singleton z hz '*' (by decide)
  have h4 := literal_ne_singleton z hz '/' (by decide)
  have h5 := literal_ne_singleton z hz '(' (by decide)
  have h6 := literal_ne_singleton z hz ')' (by decide)
  simp [evaluateLoop, h1, h2, h3, h4, h5, h6, hparse]

/-! ## Division by zero -/

/-- The reduction step of `/` fails when the top operand is zero. -/
theorem applyOperation_division_by_zero (a d : F64) (numbers : List F64)
    (operators : List Token) (hd : F64.eq d F64.zero = true) :
    applyOperation (d :: a :: numbers) (['/'] :: operators) = fail "division by zero" := by
  simp [applyOperation, applyOperator, hd, fail]

/-- C9: an input on which `Calc` succeeds, followed by `/` and a numeric
literal whose value is zero, fails with "division by zero"; and the reduction
step of `/` with a zero top operand fails so for every other operand. -/
theorem Calc_division_by_zero (T : UnicodeTables) (e : List Char) (v : F64) (z : List Char)
    (b : F64) (h : Calc T e = Except.ok v) (hz : isLiteralText z = true)
    (hparse : parseFloat z = some b) (hzero : F64.eq b F64.zero = true) :
    Calc T (e ++ '/' :: z) = fail "division by zero" ∧
    (∀ (a d : F64) (numbers : List F64) (operators : List Token),
      F64.eq d F64.zero = true →
      applyOperation (d :: a :: numbers) (['/'] :: operators) = fail "division by zero") := by
  refine ⟨?_, fun a d numbers operators hd =>
    applyOperation_division_by_zero a d numbers operators hd⟩
  obtain ⟨ts, first, last, hts, hfirst, hlast, hf, hl, hc, hev⟩ := Calc_ok_inv T e v h
  obtain ⟨numbers, operators, operators1, hloop, hdrain⟩ := evaluate_ok_inv ts v hev
  have htok : tokenize T (e ++ '/' :: z) = Except.ok ((ts ++ [['/']]) ++ [z]) := by
    unfold tokenize
    rw [tokenizeLoop_append_other T '/' (by decide) (by simp [isDigit]) (by decide)
      (by simp [isLetter, latin1Letter]) e z [] [] false (fun _ => rfl)]
    unfold tokenize at hts
    rw [hts]
    exact tokenize_literal T z hz _
  have hfirst1 : ((ts ++ [['/']]) ++ [z]).head? = some first := by
    rw [List.append_assoc]
    exact head?_append_of_head? ts _ first hfirst
  rw [Calc_of_tokens T _ _ first z htok hfirst1 (by simp)]
  rw [hf, isOperator_literal z hz,
    consecutiveOperators_concat _ z (Or.inl (isOperator_literal z hz)),
    consecutiveOperators_concat ts ['/'] (Or.inr (fun l hl1 => by
      rw [hlast] at hl1
      cases hl1
      exact hl)), hc]
  simp only [Bool.or_false, Bool.false_eq_true, if_false]
  obtain ⟨numbers2, operators2, operators3, hred, hdrain2⟩ :=
    reduceWhile_then_drainOperators (fun top => decide (precedence top ≥ precedence ['/']))
      numbers operators _ _ hdrain
  have hne : numbers2 ≠ [] :=
    drainOperators_numbers_ne_nil numbers2 operators2 _ _ hdrain2 (by simp)
  obtain ⟨a, numbers3, hnum⟩ : ∃ a numbers3, numbers2 = a :: numbers3 := by
    cases numbers2 with
    | nil => exact absurd rfl hne
    | cons a t => exact ⟨a, t, rfl⟩
  subst hnum
  have hloop1 : evaluateLoop ((ts ++ [['/']]) ++ [z]) [] [] =
      Except.ok (b :: a :: numbers3, ['/'] :: operators2) := by
    have hstep : evaluateLoop [['/']] numbers operators =
        Except.ok (a :: numbers3, ['/'] :: operators2) := by
      simp only [evaluateLoop]
      rw [if_pos (by decide), hred]
    have hlit : evaluateLoop [z] (a :: numbers3) (['/'] :: operators2) =
        Except.ok (b :: a :: numbers3, ['/'] :: operators2) := by
      rw [evaluateLoop_literal z hz b hparse]
      rfl
    rw [evaluateLoop_append, evaluateLoop_append, hloop]
    simp only
    rw [hstep]
    exact hlit
  unfold evaluate
  rw [hloop1]
  simp only [drainOperators]
  rw [if_neg (by decide), applyOperation_division_by_zero a b numbers3 operators2 hzero]
  rfl

theorem Calc_division_by_zero_witness :
    Calc latin1Tables "2 * 3/0".toList = fail "division by zero" ∧
      Calc latin1Tables "2 * 3/0.0".toList = fail "division by zero" ∧
      Calc latin1Tables "2 * 3/00".toList = fail "division by zero" ∧
      Calc latin1Tables "2 * 3/.0".toList = fail "division by zero" ∧
      Calc latin1Tables "2 * 3/0.".toList = fail "division by zero" :=
  ⟨(Calc_division_by_zero latin1Tables "2 * 3".toList (F64.ofDecimal 6 0) "0".toList
      F64.zero (by decide!) (by decide) (by decide!) (by decide)).1,
   (Calc_division_by_zero latin1Tables "2 * 3".toList (F64.ofDecimal 6 0) "0.0".toList
      F64.zero (by decide!) (by decide) (by decide!) (by decide)).1,
   (Calc_division_by_zero latin1Tables "2 * 3".toList (F64.ofDecimal 6 0) "00".toList
      F64.zero (by decide!) (by decide) (by decide!) (by decide)).1,
   (Calc_division_by_zero latin1Tables "2 * 3".toList (F64.ofDecimal 6 0) ".0".toList
      F64.zero (by decide!) (by decide) (by decide!) (by decide)).1,
   (Calc_division_by_zero latin1Tables "2 * 3".toList (F64.ofDecimal 6 0) "0.".toList
      F64.zero (by decide!) (by decide) (by decide!) (by decide)).1⟩

/-! ## The tokenizer on a laid out token sequence -/

theorem tokenizeLoop_skip_spaces (T : UnicodeTables) (w : List Char)
    (hw : ∀ c ∈ w, isSpace c = true) (x : List Char) (tokens : List Token) :
    tokenizeLoop T (w ++ x) tokens [] false = tokenizeLoop T x tokens [] false := by
  induction w with
  | nil => rfl
  | cons c rest ih =>
    simp only [List.cons_append, tokenizeLoop, hw c (List.mem_cons_self _ _), if_true,
      List.length_nil, gt_iff_lt, Nat.lt_irrefl, if_false]
    exact ih (fun d hd => hw d (List.mem_cons_of_mem _ hd))

theorem tokenizeLoop_symbol (T : UnicodeTables) (c : Char)
    (hc : c = '+' ∨ c = '-' ∨ c = '*' ∨ c = '/' ∨ c = '(' ∨ c = ')') (x : List Char)
    (tokens : List Token) :
    tokenizeLoop T (c :: x) tokens [] false = tokenizeLoop T x (tokens ++ [[c]]) [] false := by
  rcases hc with h | h | h | h | h | h <;> subst h <;>
    simp [tokenizeLoop, isSpace, isDigit, isLetter, latin1Letter]

/-- A numeric literal is cut out as one token when the text after it starts
clean. -/
theorem tokenizeLoop_literal_then (T : UnicodeTables) (z rest : List Char)
    (tokens : List Token) (cur : List Char) (dp : Bool)
    (hz : ∀ c ∈ z, ((0x30 ≤ c.toNat && c.toNat ≤ 0x39) || c == '.') = true)
    (hdots : (if dp then 0 else 1) ≥ List.count '.' z) (hne : cur ++ z ≠ [])
    (hrest : startsClean T rest = true) :
    tokenizeLoop T (z ++ rest) tokens cur dp =
      tokenizeLoop T rest (tokens ++ [cur ++ z]) [] false := by
  induction z generalizing cur dp with
  | nil =>
    have hcur : cur.length > 0 := by
      cases cur with
      | nil => simp at hne
      | cons a t => simp
    cases rest with
    | nil => simp [tokenizeLoop, hcur]
    | cons c r =>
      simp only [startsClean, Bool.or_eq_true, Bool.and_eq_true, Bool.not_eq_true',
        bne_iff_ne, ne_eq] at hrest
      cases hsp : isSpace c with
      | true => simp [tokenizeLoop, hsp, hcur]
      | false =>
        rcases hrest with hsp1 | ⟨⟨hdig, hdot⟩, hlet⟩
        · rw [hsp] at hsp1
          exact absurd hsp1 (by decide)
        · simp [tokenizeLoop, hsp, hdig, hdot, hlet, hcur]
  | cons c z ih =>
    have hz1 : ∀ d ∈ z, ((0x30 ≤ d.toNat && d.toNat ≤ 0x39) || d == '.') = true :=
      fun d hd => hz d (List.mem_cons_of_mem _ hd)
    have hc := hz c (List.mem_cons_self _ _)
    by_cases hdot : c = '.'
    · subst hdot
      cases dp with
      | true => simp at hdots
      | false =>
        simp only [List.cons_append, tokenizeLoop, isSpace_dot, isDigit_dot]
        simp only [Bool.false_eq_true, if_false, if_true]
        have h1 := ih (cur ++ ['.']) true hz1 (by simpa using hdots) (by simp)
        simpa using h1
    · have hdig : isDigit T c = true := by
        apply isDigit_of_ascii
        simpa [hdot] using hc
      have hcount : List.count '.' (c :: z) = List.count '.' z := by
        rw [List.count_cons]
        simp [hdot]
      simp only [List.cons_append, tokenizeLoop, isDigit_not_space T c hdig, hdig]
      simp only [Bool.false_eq_true, if_false, if_true]
      have h1 := ih (cur ++ [c]) dp hz1 (by rw [← hcount]; exact hdots) (by simp)
      simpa using h1

theorem isOperator_inv (t : Token) (h : isOperator t = true) :
    ∃ c, t = [c] ∧ (c = '+' ∨ c = '-' ∨ c = '*' ∨ c = '/') := by
  simp only [isOperator, Bool.or_eq_true, beq_iff_eq] at h
  rcases h with ((h | h) | h) | h
  · exact ⟨'+', h, Or.inl rfl⟩
  · exact ⟨'-', h, Or.inr (Or.inl rfl)⟩
  · exact ⟨'*', h, Or.inr (Or.inr (Or.inl rfl))⟩
  · exact ⟨'/', h, Or.inr (Or.inr (Or.inr rfl))⟩

theorem isLayout_cons (gap : List Char) (token : Token) (items : List (List Char × Token))
    (trailing : List Char) (h : isLayout ((gap, token) :: items) trailing = true) :
    (∀ c ∈ gap, isSpace c = true) ∧ isLayout items trailing = true := by
  simp only [isLayout, List.all_cons, Bool.and_eq_true, List.all_eq_true] at h ⊢
  exact ⟨h.1.1, h.1.2, h.2⟩

theorem startsClean_of_spaces (T : UnicodeTables) (w x : List Char)
    (hw : ∀ c ∈ w, isSpace c = true) (hx : startsClean T x = true) :
    startsClean T (w ++ x) = true := by
  cases w with
  | nil => exact hx
  | cons c r => simp [startsClean, hw c (List.mem_cons_self _ _)]

/-- After an operand the text starts clean, however it is laid out. -/
theorem startsClean_spaced (T : UnicodeTables) (items : List (List Char × Token))
    (trailing : List Char) (hlay : isLayout items trailing = true)
    (halt : alternates true (items.map Prod.snd) = true) :
    startsClean T (spaced items ++ trailing) = true := by
  cases items with
  | nil =>
    simp only [isLayout, List.all_nil, Bool.true_and, List.all_eq_true] at hlay
    have h := startsClean_of_spaces T trailing [] hlay rfl
    simpa [spaced] using h
  | cons item rest =>
    obtain ⟨gap, token⟩ := item
    obtain ⟨hgap, _⟩ := isLayout_cons gap token rest trailing hlay
    simp only [spaced, List.append_assoc]
    apply startsClean_of_spaces T gap _ hgap
    simp only [List.map_cons, alternates] at halt
    split at halt
    · rename_i hop
      obtain ⟨c, hc, hsym⟩ := isOperator_inv token hop
      subst hc
      rcases hsym with h | h | h | h <;> subst h <;>
        simp [startsClean, isSpace, isDigit, isLetter, latin1Letter]
    · split at halt
      · rename_i hclose
        subst hclose
        simp [startsClean, isSpace, isDigit, isLetter, latin1Letter]
      · cases halt

/-- The tokenizer returns the tokens of a laid out sequence in which operands
and operators alternate. -/
theorem tokenize_spaced (T : UnicodeTables) (items : List (List Char × Token))
    (trailing : List Char) (hlay : isLayout items trailing = true) (after : Bool)
    (halt : alternates after (items.map Prod.snd) = true) (tokens : List Token) :
    tokenizeLoop T (spaced items ++ trailing) tokens [] false =
      Except.ok (tokens ++ items.map Prod.snd) := by
  induction items generalizing after tokens with
  | nil =>
    simp only [isLayout, List.all_nil, Bool.true_and, List.all_eq_true] at hlay
    simpa [spaced] using tokenizeLoop_spaces T trailing hlay tokens false
  | cons item rest ih =>
    obtain ⟨gap, token⟩ := item
    obtain ⟨hgap, hrest⟩ := isLayout_cons gap token rest trailing hlay
    simp only [spaced, List.append_assoc, List.map_cons]
    rw [tokenizeLoop_skip_spaces T gap hgap]
    cases after with
    | false =>
      simp only [List.map_cons, alternates] at halt
      split at halt
      · rename_i hlit
        obtain ⟨hne, hall, hcount⟩ := isLiteralText_inv token hlit
        have h1 := tokenizeLoop_literal_then T token (spaced rest ++ trailing) tokens [] false
          hall (by simpa using hcount) (by simpa using hne)
          (startsClean_spaced T rest trailing hrest halt)
        rw [h1, ih hrest true halt]
        simp
      · split at halt
        · rename_i hopen
          subst hopen
          have h1 := tokenizeLoop_symbol T '(' (Or.inr (Or.inr (Or.inr (Or.inr (Or.inl rfl)))))
            (spaced rest ++ trailing) tokens
          simp only [List.singleton_append] at h1 ⊢
          rw [h1, ih hrest false halt]
          simp
        · cases halt
    | true =>
      simp only [List.map_cons, alternates] at halt
      split at halt
      · rename_i hop
        obtain ⟨c, hc, hsym⟩ := isOperator_inv token hop
        subst hc
        have h1 := tokenizeLoop_symbol T c (by
          rcases hsym with h | h | h | h <;> simp [h]) (spaced rest ++ trailing) tokens
        simp only [List.singleton_append] at h1 ⊢
        rw [h1, ih hrest false halt]
        simp
      · split at halt
        · rename_i hclose
          subst hclose
          have h1 := tokenizeLoop_symbol T ')'
            (Or.inr (Or.inr (Or.inr (Or.inr (Or.inr rfl))))) (spaced rest ++ trailing) tokens
          simp only [List.singleton_append] at h1 ⊢
          rw [h1, ih hrest true halt]
          simp
        · cases halt

/-! ## Token sequences in which operands and operators alternate -/

theorem alternates_head (ts : List Token) (h : alternates false ts = true) :
    ∃ first, ts.head? = some first ∧ isOperator first = false := by
  cases ts with
  | nil => cases h
  | cons t rest =>
    refine ⟨t, rfl, ?_⟩
    simp only [alternates] at h
    split at h
    · rename_i hlit
      exact isOperator_literal t hlit
    · split at h
      · rename_i hopen
        subst hopen
        decide
      · cases h

theorem alternates_last (after : Bool) (ts : List Token) (h : alternates after ts = true)
    (last : Token) (hlast : ts.getLast? = some last) : isOperator last = false := by
  induction ts generalizing after with
  | nil => cases hlast
  | cons t rest ih =>
    cases rest with
    | nil =>
      simp only [List.getLast?_singleton, Option.some.injEq] at hlast
      subst hlast
      cases after with
      | false =>
        simp only [alternates] at h
        split at h
        · rename_i hlit
          exact isOperator_literal t hlit
        · split at h <;> cases h
      | true =>
        simp only [alternates] at h
        split at h
        · cases h
        · split at h
          · rename_i hclose
            subst hclose
            decide
          · cases h
    | cons t2 rest2 =>
      rw [List.getLast?_cons_cons] at hlast
      cases after with
      | false =>
        simp only [alternates] at h
        split at h
        · exact ih true h hlast
        · split at h
          · exact ih false h hlast
          · cases h
      | true =>
        simp only [alternates] at h
        split at h
        · exact ih false h hlast
        · split at h
          · exact ih true h hlast
          · cases h

theorem alternates_consecutive (after : Bool) (ts : List Token)
    (h : alternates after ts = true) : consecutiveOperators ts = false := by
  induction ts generalizing after with
  | nil => rfl
  | cons t rest ih =>
    cases after with
    | false =>
      simp only [alternates] at h
      split at h
      · rename_i hlit
        rw [consecutiveOperators_cons t rest (isOperator_literal t hlit)]
        exact ih true h
      · split at h
        · rename_i hopen
          subst hopen
          rw [consecutiveOperators_cons _ rest (by decide)]
          exact ih false h
        · cases h
    | true =>
      simp only [alternates] at h
      split at h
      · obtain ⟨first, hfirst, hop⟩ := alternates_head rest h
        cases rest with
        | nil => cases hfirst
        | cons t2 rest2 =>
          simp only [List.head?_cons, Option.some.injEq] at hfirst
          subst hfirst
          simp only [consecutiveOperators, hop, Bool.and_false, Bool.false_or]
          exact ih false h
      · split at h
        · rename_i hclose
          subst hclose
          rw [consecutiveOperators_cons _ rest (by decide)]
          exact ih true h
        · cases h

theorem isOperator_token (op : BinOp) : isOperator op.token = true := by
  cases op <;> decide

theorem precedence_token (op : BinOp) : precedence op.token = op.level := by
  cases op <;> decide

theorem token_ne_open (op : BinOp) : op.token ≠ ['('] := by
  cases op <;> decide

theorem token_ne_close (op : BinOp) : op.token ≠ [')'] := by
  cases op <;> decide

theorem isLiteralText_token (op : BinOp) : isLiteralText op.token = false := by
  cases op <;> decide

/-- In the tokens of a well formed tree operands and operators alternate. -/
theorem alternates_tokens (e : Expr) (hwf : e.wellFormed = true) (rest : List Token) :
    alternates false (e.tokens ++ rest) = alternates true rest := by
  induction e generalizing rest with
  | lit z =>
    simp only [Expr.wellFormed, Bool.and_eq_true] at hwf
    simp [Expr.tokens, alternates, hwf.1]
  | paren e ih =>
    simp only [Expr.wellFormed] at hwf
    have h1 := ih hwf ([')'] :: rest)
    have h2 : isLiteralText ['('] = false := by decide
    have h3 : isOperator [')'] = false := by decide
    have h4 : Expr.tokens (Expr.paren e) ++ rest = ['('] :: (e.tokens ++ [')'] :: rest) := by
      simp [Expr.tokens]
    rw [h4]
    simp only [alternates, h2, Bool.false_eq_true, if_false, if_true, h1, h3]
  | bin op l r ihl ihr =>
    simp only [Expr.wellFormed, Bool.and_eq_true] at hwf
    have h1 := ihl hwf.1.1.1 (op.token :: (r.tokens ++ rest))
    have h2 := ihr hwf.1.1.2 rest
    simp only [Expr.tokens, List.append_assoc, List.cons_append]
    rw [h1]
    simp only [alternates, isOperator_token, if_true]
    exact h2

/-! ## The evaluator on the tokens of a tree -/

theorem applyOperation_ok (t : Token) (a b r : F64) (numbers : List F64)
    (operators : List Token) (h : applyOperator t a b = Except.ok r) :
    applyOperation (b :: a :: numbers) (t :: operators) = Except.ok (r :: numbers, operators) := by
  simp [applyOperation, h]

theorem reduceWhile_stop (cond : Token → Bool) (numbers : List F64) (operators : List Token)
    (hbase : ∀ top, operators.head? = some top → cond top = false) :
    reduceWhile cond numbers operators = Except.ok (numbers, operators) := by
  cases operators with
  | nil => rfl
  | cons top rest => simp [reduceWhile, hbase top rfl]

theorem operator_level_pos (op : BinOp) : 1 ≤ op.level := by
  cases op <;> decide

theorem level_le_two (op : BinOp) : op.level ≤ 2 := by
  cases op <;> decide

/-- A reduction loop that takes the pending operators and stops at the stack
below applies them and leaves the value. -/
theorem Pending_reduce (cond : Token → Bool) (lvl : Nat) (v : F64) (numbers : List F64)
    (operators : List Token) (numbers1 : List F64) (operators1 : List Token)
    (hp : Pending lvl v numbers operators numbers1 operators1)
    (hops : ∀ op : BinOp, lvl ≤ op.level → cond op.token = true)
    (hbase : ∀ top, operators.head? = some top → cond top = false) :
    reduceWhile cond numbers1 operators1 = Except.ok (v :: numbers, operators) := by
  rcases hp with ⟨h1, h2⟩ | ⟨op, a, b, hlvl, happ, h1, h2⟩ |
    ⟨op1, op2, a, b, c, w, hlvl, hl1, hl2, happ2, happ1, h1, h2⟩
  · subst h1 h2
    exact reduceWhile_stop cond _ _ hbase
  · subst h1 h2
    simp only [reduceWhile, hops op hlvl, if_true, applyOperation_ok _ _ _ _ _ _ happ]
    exact reduceWhile_stop cond _ _ hbase
  · subst h1 h2
    have hc2 : cond op2.token = true := hops op2 (by omega)
    have hc1 : cond op1.token = true := hops op1 (by omega)
    simp only [reduceWhile, hc2, hc1, if_true, applyOperation_ok _ _ _ _ _ _ happ2,
      applyOperation_ok _ _ _ _ _ _ happ1]
    exact reduceWhile_stop cond _ _ hbase

/-- The final loop applies the pending operators and leaves the value. -/
theorem Pending_drain (lvl : Nat) (v : F64) (numbers : List F64) (numbers1 : List F64)
    (operators1 : List Token) (hp : Pending lvl v numbers [] numbers1 operators1) :
    drainOperators numbers1 operators1 = Except.ok (v :: numbers, []) := by
  rcases hp with ⟨h1, h2⟩ | ⟨op, a, b, hlvl, happ, h1, h2⟩ |
    ⟨op1, op2, a, b, c, w, hlvl, hl1, hl2, happ2, happ1, h1, h2⟩
  · subst h1 h2
    rfl
  · subst h1 h2
    simp only [drainOperators, token_ne_open, if_false, applyOperation_ok _ _ _ _ _ _ happ]
  · subst h1 h2
    simp only [drainOperators, token_ne_open, if_false, applyOperation_ok _ _ _ _ _ _ happ2,
      applyOperation_ok _ _ _ _ _ _ happ1]

theorem F64.eq_self (x : F64) (h : F64.isNaN x = false) : F64.eq x x = true := by
  cases x with
  | nan => cases h
  | inf s => simp [F64.eq]
  | fin s k => simp [F64.eq]

/-- Where the reference evaluation meets no division by zero and no
overflow, and a product stays within the constant of `applyOperation`, the
reduction step computes the value of the operator. -/
theorem applyOperator_of_value (op : BinOp) (a b : F64)
    (hdiv : ¬ (op = BinOp.div ∧ F64.eq b F64.zero = true))
    (hfin : (F64.isInf (op.apply a b) || F64.isNaN (op.apply a b)) = false)
    (hlim : op = BinOp.mul → (F64.lt F64.overflowLimit (F64.mul a b)
      || F64.lt (F64.mul a b) (F64.neg F64.overflowLimit)) = false) :
    applyOperator op.token a b = Except.ok (op.apply a b) := by
  cases op with
  | add =>
    simp only [BinOp.apply] at hfin
    simp [applyOperator, BinOp.token, BinOp.apply, hfin]
  | sub =>
    simp only [BinOp.apply] at hfin
    simp [applyOperator, BinOp.token, BinOp.apply, hfin]
  | mul =>
    simp only [BinOp.apply] at hfin
    have hnan : F64.isNaN (F64.mul a b) = false := by
      rw [Bool.or_eq_false_iff] at hfin
      exact hfin.2
    simp [applyOperator, BinOp.token, BinOp.apply, hfin, hlim rfl, F64.eq_self _ hnan]
  | div =>
    simp only [BinOp.apply] at hfin
    have hz : F64.eq b F64.zero = false := by
      cases h : F64.eq b F64.zero with
      | false => rfl
      | true => exact absurd ⟨rfl, h⟩ hdiv
    simp [applyOperator, BinOp.token, BinOp.apply, hfin, hz]

theorem evaluateLoop_operator (op : BinOp) (rest : List Token) (numbers : List F64)
    (operators : List Token) (numbers1 : List F64) (operators1 : List Token)
    (h : reduceWhile (fun top => decide (precedence top ≥ precedence op.token))
      numbers operators = Except.ok (numbers1, operators1)) :
    evaluateLoop (op.token :: rest) numbers operators =
      evaluateLoop rest numbers1 (op.token :: operators1) := by
  have hop : op.token = ['+'] ∨ op.token = ['-'] ∨ op.token = ['*'] ∨ op.token = ['/'] := by
    cases op <;> simp [BinOp.token]
  simp only [evaluateLoop]
  rw [if_pos hop, h]

theorem evaluateLoop_open (rest : List Token) (numbers : List F64) (operators : List Token) :
    evaluateLoop (['('] :: rest) numbers operators =
      evaluateLoop rest numbers (['('] :: operators) := by
  simp [evaluateLoop]

theorem evaluateLoop_close (rest : List Token) (numbers : List F64) (operators : List Token)
    (numbers1 : List F64) (operators1 : List Token)
    (h : reduceWhile (fun top => decide (top ≠ ['('])) numbers operators =
      Except.ok (numbers1, ['('] :: operators1)) :
    evaluateLoop ([')'] :: rest) numbers operators = evaluateLoop rest numbers1 operators1 := by
  simp only [evaluateLoop]
  rw [if_pos trivial, h]
  simp

theorem Expr.one_le_level (e : Expr) : 1 ≤ e.level := by
  cases e with
  | lit z => simp [Expr.level]
  | paren e => simp [Expr.level]
  | bin op l r => exact operator_level_pos op

theorem Expr.value_bin_inv (op : BinOp) (l r : Expr) (v : F64)
    (h : Expr.value (Expr.bin op l r) = some v) :
    ∃ a b, l.value = some a ∧ r.value = some b ∧
      ¬ (op = BinOp.div ∧ F64.eq b F64.zero = true) ∧
      (F64.isInf (op.apply a b) || F64.isNaN (op.apply a b)) = false ∧ v = op.apply a b := by
  simp only [Expr.value] at h
  split at h
  · rename_i a b hva hvb
    split at h
    · cases h
    · rename_i hdiv
      split at h
      · cases h
      · rename_i hfin
        cases h
        exact ⟨a, b, hva, hvb, hdiv, by simpa using hfin, rfl⟩
  · cases h

theorem Expr.productsWithinLimit_bin (op : BinOp) (l r : Expr) :
    (Expr.bin op l r).productsWithinLimit =
      (l.productsWithinLimit && r.productsWithinLimit &&
        (match op, l.value, r.value with
         | BinOp.mul, some a, some b => F64.withinLimit (F64.mul a b)
         | _, _, _ => true)) :=
  rfl

/-- The main loop on the tokens of a well formed tree leaves its value
pending on the stacks. -/
theorem evaluateLoop_tokens (e : Expr) (hwf : e.wellFormed = true)
    (hlim : e.productsWithinLimit = true) (v : F64) (hval : e.value = some v)
    (numbers : List F64) (operators : List Token)
    (hbase : ∀ top, operators.head? = some top → precedence top < e.level) :
    ∃ numbers1 operators1,
      evaluateLoop e.tokens numbers operators = Except.ok (numbers1, operators1) ∧
      Pending e.level v numbers operators numbers1 operators1 := by
  induction e generalizing v numbers operators with
  | lit z =>
    simp only [Expr.wellFormed, Bool.and_eq_true] at hwf
    refine ⟨v :: numbers, operators, ?_, Or.inl ⟨rfl, rfl⟩⟩
    simp only [Expr.tokens]
    rw [evaluateLoop_literal z hwf.1 v hval]
    rfl
  | paren e ih =>
    simp only [Expr.wellFormed] at hwf
    have hlim1 : e.productsWithinLimit = true := hlim
    simp only [Expr.value] at hval
    obtain ⟨numbers1, operators1, hloop, hp⟩ := ih hwf hlim1 v hval numbers (['('] :: operators)
      (by
        intro top htop
        simp only [List.head?_cons, Option.some.injEq] at htop
        subst htop
        exact e.one_le_level)
    have hred := Pending_reduce (fun top => decide (top ≠ ['('])) e.level v numbers
      (['('] :: operators) numbers1 operators1 hp
      (by
        intro op _
        simpa using token_ne_open op)
      (by
        intro top htop
        simp only [List.head?_cons, Option.some.injEq] at htop
        subst htop
        decide)
    refine ⟨v :: numbers, operators, ?_, Or.inl ⟨rfl, rfl⟩⟩
    simp only [Expr.tokens]
    rw [evaluateLoop_open, evaluateLoop_append, hloop]
    simp only
    rw [evaluateLoop_close [] numbers1 operators1 (v :: numbers) operators hred]
    rfl
  | bin op l r ihl ihr =>
    simp only [Expr.wellFormed, Bool.and_eq_true, decide_eq_true_eq] at hwf
    obtain ⟨⟨⟨hwfl, hwfr⟩, hll⟩, hlr⟩ := hwf
    rw [Expr.productsWithinLimit_bin] at hlim
    simp only [Bool.and_eq_true] at hlim
    obtain ⟨⟨hliml, hlimr⟩, hprod⟩ := hlim
    obtain ⟨a, b, hva, hvb, hdiv, hfin, hv⟩ := Expr.value_bin_inv op l r v hval
    simp only [Expr.level] at hbase ⊢
    have happ : applyOperator op.token a b = Except.ok v := by
      rw [hv]
      apply applyOperator_of_value op a b hdiv hfin
      intro hmul
      subst hmul
      rw [hva, hvb] at hprod
      simpa [F64.withinLimit] using hprod
    obtain ⟨numbers1, operators1, hloopl, hpl⟩ := ihl hwfl hliml a hva numbers operators
      (fun top htop => Nat.lt_of_lt_of_le (hbase top htop) hll)
    have hred := Pending_reduce (fun top => decide (precedence top ≥ precedence op.token))
      l.level a numbers operators numbers1 operators1 hpl
      (by
        intro op1 h1
        simp only [precedence_token, ge_iff_le, decide_eq_true_eq]
        omega)
      (by
        intro top htop
        have := hbase top htop
        simp only [precedence_token, ge_iff_le, decide_eq_false_iff_not]
        omega)
    obtain ⟨numbers2, operators2, hloopr, hpr⟩ := ihr hwfr hlimr b hvb (a :: numbers)
      (op.token :: operators)
      (by
        intro top htop
        simp only [List.head?_cons, Option.some.injEq] at htop
        subst htop
        rw [precedence_token]
        exact hlr)
    refine ⟨numbers2, operators2, ?_, ?_⟩
    · simp only [Expr.tokens]
      rw [evaluateLoop_append, hloopl]
      simp only
      rw [evaluateLoop_operator op r.tokens numbers1 operators1 (a :: numbers) operators hred]
      exact hloopr
    · rcases hpr with ⟨h1, h2⟩ | ⟨op2, b1, c, hlvl, happ2, h1, h2⟩ |
        ⟨op1, op2, a1, b1, c, w, hlvl, _, _, _, _, _, _⟩
      · exact Or.inr (Or.inl ⟨op, a, b, Nat.le_refl _, happ, h1, h2⟩)
      · have h2l := level_le_two op2
        have h1l := operator_level_pos op
        exact Or.inr (Or.inr ⟨op, op2, a, b1, c, b, by omega, by omega, by omega, happ2, happ,
          h1, h2⟩)
      · have h1l := operator_level_pos op
        omega

/-! ## Standard infix arithmetic -/

/-- The refinement behind C1: for every well formed expression tree, however
its text is laid out with white space, whose reference evaluation meets no
division by zero and no overflow, and whose products stay within the constant
`1.797693e+308`, `Calc` returns the value of the reference evaluation. -/
theorem Calc_eq_value (T : UnicodeTables) (e : Expr) (items : List (List Char × Token))
    (trailing : List Char) (v : F64) (hwf : e.wellFormed = true)
    (htokens : items.map Prod.snd = e.tokens) (hlay : isLayout items trailing = true)
    (hval : e.value = some v) (hlim : e.productsWithinLimit = true) :
    Calc T (spaced items ++ trailing) = Except.ok v := by
  have halt : alternates false e.tokens = true := by
    have h := alternates_tokens e hwf []
    simpa [alternates] using h
  have htok : tokenize T (spaced items ++ trailing) = Except.ok e.tokens := by
    have h := tokenize_spaced T items trailing hlay false (by rw [htokens]; exact halt) []
    rw [htokens] at h
    simpa [tokenize] using h
  obtain ⟨first, hfirst, hf⟩ := alternates_head e.tokens halt
  obtain ⟨last, hlast⟩ := getLast?_isSome_of_head? e.tokens first hfirst
  have hl := alternates_last false e.tokens halt last hlast
  rw [Calc_of_tokens T _ e.tokens first last htok hfirst hlast, hf, hl,
    alternates_consecutive false e.tokens halt]
  simp only [Bool.or_false, Bool.false_eq_true, if_false]
  obtain ⟨numbers1, operators1, hloop, hp⟩ := evaluateLoop_tokens e hwf hlim v hval [] []
    (by intro top htop; cases htop)
  unfold evaluate
  rw [hloop]
  simp only
  rw [Pending_drain e.level v [] numbers1 operators1 hp]

theorem Calc_eq_value_witness :
    Calc latin1Tables "2.5 * (3 + 4) / 2".toList = Except.ok (F64.ofDecimal 875 2) :=
  Calc_eq_value latin1Tables
    (Expr.bin BinOp.div
      (Expr.bin BinOp.mul (Expr.lit "2.5".toList)
        (Expr.paren (Expr.bin BinOp.add (Expr.lit ['3']) (Expr.lit ['4']))))
      (Expr.lit ['2']))
    [([], "2.5".toList), ([' '], ['*']), ([' '], ['(']), ([], ['3']), ([' '], ['+']),
      ([' '], ['4']), ([], [')']), ([' '], ['/']), ([' '], ['2'])]
    [] (F64.ofDecimal 875 2) (by decide!) (by decide) (by decide) (by decide!) (by decide!)

/-! ## Products close to the largest double -/

/-- C1, at the input where the code departs from it: the literal
`17976931` followed by 301 zeros is a finite double, and so is its product
with `1`, which the reference evaluation returns for the well formed tree of
`17976931...0*1`; `Calc` fails on that text with "numeric overflow", while it
returns the same value for the sum with `0`. -/
theorem Calc_rejects_finite_product (T : UnicodeTables) :
    parseFloat nearMaxLiteral = some (F64.ofDecimal (17976931 * 10 ^ 301) 0) ∧
    F64.isInf (F64.ofDecimal (17976931 * 10 ^ 301) 0) = false ∧
    F64.isNaN (F64.ofDecimal (17976931 * 10 ^ 301) 0) = false ∧
    F64.lt (F64.ofDecimal (17976931 * 10 ^ 301) 0) F64.maxFloat64 = true ∧
    Expr.wellFormed (Expr.bin BinOp.mul (Expr.lit nearMaxLiteral) (Expr.lit ['1'])) = true ∧
    Expr.tokens (Expr.bin BinOp.mul (Expr.lit nearMaxLiteral) (Expr.lit ['1']))
      = [nearMaxLiteral, ['*'], ['1']] ∧
    tokenize T (nearMaxLiteral ++ "*1".toList) = Except.ok [nearMaxLiteral, ['*'], ['1']] ∧
    Expr.value (Expr.bin BinOp.mul (Expr.lit nearMaxLiteral) (Expr.lit ['1']))
      = some (F64.ofDecimal (17976931 * 10 ^ 301) 0) ∧
    Calc T (nearMaxLiteral ++ "+0".toList)
      = Except.ok (F64.ofDecimal (17976931 * 10 ^ 301) 0) ∧
    Calc T (nearMaxLiteral ++ "*1".toList) = fail "numeric overflow" := by
  have h1 : ∀ c ∈ nearMaxLiteral ++ "*1".toList, c.toNat ≤ 0xFF := by decide!
  have h2 : ∀ c ∈ nearMaxLiteral ++ "+0".toList, c.toNat ≤ 0xFF := by decide!
  rw [Calc_latin1 T _ h1, Calc_latin1 T _ h2]
  unfold tokenize
  rw [tokenizeLoop_latin1 T _ h1]
  refine ⟨?_, ?_, ?_, ?_, ?_, ?_, ?_, ?_, ?_, ?_⟩ <;> decide!

/-! ## Division by zero and the leading minus sign -/

/-- C10, as the code has it: `1/0` fails with "division by zero", and so does
`(0-5)/0` with its negative dividend, but `-5/0` fails with "invalid
expression", because its first token is an operator. -/
theorem Calc_division_by_zero_examples (T : UnicodeTables) :
    Calc T "1/0".toList = fail "division by zero" ∧
    Calc T "(0-5)/0".toList = fail "division by zero" ∧
    Calc T "-5/0".toList = fail "invalid expression" := by
  refine ⟨?_, ?_, ?_⟩
  · rw [Calc_latin1 T _ (by decide)]; decide!
  · rw [Calc_latin1 T _ (by decide)]; decide!
  · rw [Calc_latin1 T _ (by decide)]; decide!

/-- C10 is false as stated: `Calc` on `-5/0` does not fail with "division by
zero". -/
theorem Calc_leading_minus_not_division_by_zero :
    ¬ (∀ T : UnicodeTables, Calc T "-5/0".toList = fail "division by zero") := by
  intro h
  have h1 := h latin1Tables
  revert h1
  decide!

/-! ## The faults of `Calc` -/

/-- An input with a rune that is not white space yields a token, if it
yields any. -/
theorem tokenizeLoop_ne_nil (T : UnicodeTables) (s : List Char) (tokens : List Token)
    (cur : List Char) (dp : Bool) (ts : List Token)
    (h : tokenizeLoop T s tokens cur dp = Except.ok ts)
    (hsome : tokens ≠ [] ∨ cur ≠ [] ∨ ∃ c ∈ s, isSpace c = false) : ts ≠ [] := by
  induction s generalizing tokens cur dp with
  | nil =>
    simp only [tokenizeLoop] at h
    split at h
    · cases h
      simp
    · rename_i hcur
      cases h
      rcases hsome with h1 | h1 | ⟨c, hc, _⟩
      · exact h1
      · exfalso
        cases cur with
        | nil => exact h1 rfl
        | cons a t => simp at hcur
      · cases hc
  | cons c rest ih =>
    simp only [tokenizeLoop, fail] at h
    split at h
    · rename_i hsp
      split at h
      · exact ih _ _ _ h (Or.inl (by simp))
      · refine ih _ _ _ h ?_
        rcases hsome with h1 | h1 | ⟨d, hd, hdsp⟩
        · exact Or.inl h1
        · exact Or.inr (Or.inl h1)
        · rcases List.mem_cons.mp hd with h2 | h2
          · subst h2
            rw [hsp] at hdsp
            cases hdsp
          · exact Or.inr (Or.inr ⟨d, h2, hdsp⟩)
    · split at h
      · exact ih _ _ _ h (Or.inr (Or.inl (by simp)))
      · split at h
        · split at h
          · cases h
          · exact ih _ _ _ h (Or.inr (Or.inl (by simp)))
        · split at h
          · cases h
          · split at h
            · exact ih _ _ _ h (Or.inl (by simp))
            · exact ih _ _ _ h (Or.inl (by simp))

theorem exists_not_space_of_trimSpace (s : List Char) (h : trimSpace s ≠ []) :
    ∃ c ∈ s, isSpace c = false := by
  by_contra hall
  apply h
  rw [trimSpace_eq_nil_iff]
  intro c hc
  cases hsp : isSpace c with
  | true => rfl
  | false => exact absurd ⟨c, hc, hsp⟩ hall

theorem isTaxonomyFault_of_evaluate (e : Fault) (h : IsEvaluateFault e) :
    IsTaxonomyFault e ∨ e = Fault.error "not enough operands" := by
  unfold IsEvaluateFault at h
  unfold IsTaxonomyFault
  rcases h with h | h | h | h | h | ⟨token, h⟩
  · exact Or.inr h
  · exact Or.inl (Or.inr (Or.inr (Or.inr (Or.inr (Or.inr (Or.inr (Or.inr h)))))))
  · exact Or.inl (Or.inr (Or.inr (Or.inr (Or.inr (Or.inr (Or.inr (Or.inl h)))))))
  · exact Or.inl (Or.inr (Or.inr (Or.inr (Or.inr (Or.inr (Or.inl h))))))
  · exact Or.inl (Or.inr (Or.inr (Or.inr (Or.inl h))))
  · exact Or.inl (Or.inr (Or.inr (Or.inl ⟨token, h⟩)))

/-- Every fault of `Calc` is an error of the taxonomy or the error "not
enough operands"; it is never a panic. -/
theorem Calc_fault_cases (T : UnicodeTables) (s : List Char) (e : Fault)
    (h : Calc T s = Except.error e) :
    IsTaxonomyFault e ∨ e = Fault.error "not enough operands" := by
  unfold Calc at h
  simp only [fail] at h
  split at h
  · cases h
    exact Or.inl (Or.inl rfl)
  · rename_i htrim
    split at h
    · rename_i e1 heq
      cases h
      have he := tokenizeLoop_fault T s [] [] false e heq
      exact Or.inl (Or.inr (Or.inl he))
    · rename_i ts hts
      split at h
      · split at h
        · cases h
          exact Or.inl (Or.inr (Or.inr (Or.inr (Or.inl rfl))))
        · split at h
          · cases h
            exact Or.inl (Or.inr (Or.inr (Or.inr (Or.inr (Or.inl rfl)))))
          · exact isTaxonomyFault_of_evaluate e (evaluate_fault ts e h)
      · rename_i hnone
        exfalso
        have hne : ts ≠ [] := tokenizeLoop_ne_nil T s [] [] false ts hts
          (Or.inr (Or.inr (exists_not_space_of_trimSpace s htrim)))
        cases ts with
        | nil => exact hne rfl
        | cons a t =>
          exact hnone a ((a :: t).getLast (List.cons_ne_nil a t)) rfl
            (List.getLast?_eq_getLast _ _)

theorem not_isTaxonomyFault_operands :
    ¬ IsTaxonomyFault (Fault.error "not enough operands") := by
  unfold IsTaxonomyFault
  intro h
  rcases h with h | h | ⟨token, h⟩ | h | h | h | h | h
  · exact absurd h (by decide)
  · exact absurd h (by decide)
  · injection h with h
    have h2 := congrArg (fun t => t.data.head?) h
    simp only [String.data_append] at h2
    simp at h2
  · exact absurd h (by decide)
  · exact absurd h (by decide)
  · exact absurd h (by decide)
  · exact absurd h (by decide)
  · exact absurd h (by decide)

/-- C13, as the code has it: every fault of `Calc` is an error of one of the
seven kinds of the taxonomy or the error "not enough operands". -/
theorem Calc_fault_taxonomy (T : UnicodeTables) (s : List Char) (e : Fault)
    (h : Calc T s = Except.error e) :
    IsTaxonomyFault e ∨ e = Fault.error "not enough operands" :=
  Calc_fault_cases T s e h

theorem Calc_fault_taxonomy_witness :
    IsTaxonomyFault (Fault.error "mismatched parentheses") ∨
      Fault.error "mismatched parentheses" = Fault.error "not enough operands" :=
  Calc_fault_taxonomy latin1Tables "(2 + 3".toList (Fault.error "mismatched parentheses")
    (by decide!)

/-- C13 is false as stated: on `(+)` the error of `Calc` is "not enough
operands", which is none of the seven kinds. -/
theorem Calc_fault_outside_taxonomy :
    ¬ (∀ (T : UnicodeTables) (s : List Char) (e : Fault),
      Calc T s = Except.error e → IsTaxonomyFault e) := by
  intro h
  exact not_isTaxonomyFault_operands
    (h latin1Tables "(+)".toList (Fault.error "not enough operands") (by decide!))

/-! ## A bare operator -/

/-- C16, as the code has it: an input whose only token is a binary operator
fails with "invalid expression" in the structural check of `Calc`; the check
of `applyOperation` for fewer than two operands is reached by `(+)`, which
fails with "not enough operands". -/
theorem Calc_bare_operator (T : UnicodeTables) (s : List Char) (t : Token)
    (h : tokenize T s = Except.ok [t]) (hop : isOperator t = true) :
    Calc T s = fail "invalid expression" ∧
    Calc T "(+)".toList = fail "not enough operands" := by
  constructor
  · rw [Calc_of_tokens T s [t] t t h rfl rfl, hop]
    rfl
  · rw [Calc_latin1 T _ (by decide)]
    decide!

theorem Calc_bare_operator_witness :
    Calc latin1Tables " + ".toList = fail "invalid expression" ∧
      Calc latin1Tables "(+)".toList = fail "not enough operands" :=
  Calc_bare_operator latin1Tables " + ".toList ['+'] (by decide) (by decide)

/-- C16 is false as stated: `Calc` on `+` does not fail with "not enough
operands". -/
theorem Calc_bare_operator_not_operands :
    ¬ (∀ T : UnicodeTables, Calc T "+".toList = fail "not enough operands") := by
  intro h
  have h1 := h latin1Tables
  revert h1
  decide!

/-! ## Reads within bounds -/

/-- C18: an input that is not blank yields a non-empty token sequence when
`tokenize` succeeds, `evaluate` never reads the top of an empty operator
stack, and so `Calc` never panics. -/
theorem Calc_reads_in_bounds (T : UnicodeTables) (s : List Char) :
    ((∃ c ∈ s, isSpace c = false) → ∀ ts, tokenize T s = Except.ok ts → ts ≠ []) ∧
    (∀ tokens : List Token, evaluate tokens ≠ Except.error Fault.panic) ∧
    Calc T s ≠ Except.error Fault.panic := by
  refine ⟨?_, ?_, ?_⟩
  · intro hc ts hts
    exact tokenizeLoop_ne_nil T s [] [] false ts hts (Or.inr (Or.inr hc))
  · intro tokens h
    have h1 := evaluate_fault tokens _ h
    unfold IsEvaluateFault at h1
    rcases h1 with h1 | h1 | h1 | h1 | h1 | ⟨token, h1⟩ <;> cases h1
  · intro h
    rcases Calc_fault_cases T s _ h with h1 | h1
    · unfold IsTaxonomyFault at h1
      rcases h1 with h1 | h1 | ⟨token, h1⟩ | h1 | h1 | h1 | h1 | h1 <;> cases h1
    · cases h1

theorem Calc_reads_in_bounds_witness :
    ([['2'], ['3']] : List Token) ≠ [] ∧
      Calc latin1Tables " 2 3".toList ≠ Except.error Fault.panic :=
  ⟨(Calc_reads_in_bounds latin1Tables " 2 3".toList).1 ⟨'2', by decide, by decide⟩
      [['2'], ['3']] (by decide),
   (Calc_reads_in_bounds latin1Tables " 2 3".toList).2.2⟩

/-! ## Results are finite -/

theorem F64.isFinite_fin (s : Bool) (k : Nat) :
    F64.isFinite (F64.fin s k) = decide (k < F64.unitsBound) :=
  rfl

theorem F64.roundUnits_isFinite (neg : Bool) (num den : Nat) (s : Bool) (k : Nat)
    (h : F64.roundUnits neg num den = F64.fin s k) : k < F64.unitsBound := by
  unfold F64.roundUnits at h
  simp only at h
  split at h
  · cases h
  · rename_i hle
    injection h with _ hk
    rw [← hk]
    exact Nat.lt_of_not_le hle

theorem F64.isFinite_of_roundUnits (neg : Bool) (num den : Nat)
    (h1 : F64.isInf (F64.roundUnits neg num den) = false) :
    F64.isFinite (F64.roundUnits neg num den) = true := by
  cases hr : F64.roundUnits neg num den with
  | nan =>
    exfalso
    unfold F64.roundUnits at hr
    simp only at hr
    split at hr <;> cases hr
  | inf s => rw [hr] at h1; cases h1
  | fin s k =>
    rw [F64.isFinite_fin]
    exact decide_eq_true (F64.roundUnits_isFinite neg num den s k hr)

theorem F64.isFinite_signed_zero (s : Bool) : F64.isFinite (F64.fin s 0) = true := by
  rw [F64.isFinite_fin]
  apply decide_eq_true
  unfold F64.unitsBound
  apply Nat.pow_pos
  decide

theorem F64.isFinite_add (x y : F64)
    (h : (F64.isInf (F64.add x y) || F64.isNaN (F64.add x y)) = false) :
    F64.isFinite (F64.add x y) = true := by
  rw [Bool.or_eq_false_iff] at h
  obtain ⟨h1, h2⟩ := h
  cases x with
  | nan => cases y <;> cases h2
  | inf s =>
    cases y with
    | nan => cases h2
    | inf t =>
      by_cases hst : s = t
      · simp only [F64.add, hst, if_true] at h1
        cases h1
      · simp only [F64.add, hst, if_false] at h2
        cases h2
    | fin t b => cases h1
  | fin s a =>
    cases y with
    | nan => cases h2
    | inf t => cases h1
    | fin t b =>
      by_cases hst : s = t
      · subst hst
        simp only [F64.add, if_true] at h1 ⊢
        exact F64.isFinite_of_roundUnits s (a + b) 1 h1
      · by_cases hlt : b < a
        · simp only [F64.add, hst, hlt, if_true, if_false] at h1 ⊢
          exact F64.isFinite_of_roundUnits s (a - b) 1 h1
        · by_cases hlt2 : a < b
          · simp only [F64.add, hst, hlt, hlt2, if_true, if_false] at h1 ⊢
            exact F64.isFinite_of_roundUnits t (b - a) 1 h1
          · simp only [F64.add, hst, hlt, hlt2, if_false]
            exact F64.isFinite_signed_zero false

theorem F64.isFinite_mul (x y : F64)
    (h : (F64.isInf (F64.mul x y) || F64.isNaN (F64.mul x y)) = false) :
    F64.isFinite (F64.mul x y) = true := by
  rw [Bool.or_eq_false_iff] at h
  obtain ⟨h1, h2⟩ := h
  cases x with
  | nan => cases y <;> cases h2
  | inf s =>
    cases y with
    | nan => cases h2
    | inf t => cases h1
    | fin t b =>
      by_cases hb : b = 0
      · simp only [F64.mul, hb, if_true] at h2
        cases h2
      · simp only [F64.mul, hb, if_false] at h1
        cases h1
  | fin s a =>
    cases y with
    | nan => cases h2
    | inf t =>
      by_cases ha : a = 0
      · simp only [F64.mul, ha, if_true] at h2
        cases h2
      · simp only [F64.mul, ha, if_false] at h1
        cases h1
    | fin t b =>
      simp only [F64.mul] at h1 ⊢
      exact F64.isFinite_of_roundUnits (xor s t) (a * b) (2 ^ 1074) h1

theorem F64.isFinite_div (x y : F64)
    (h : (F64.isInf (F64.div x y) || F64.isNaN (F64.div x y)) = false) :
    F64.isFinite (F64.div x y) = true := by
  rw [Bool.or_eq_false_iff] at h
  obtain ⟨h1, h2⟩ := h
  cases x with
  | nan => cases y <;> cases h2
  | inf s =>
    cases y with
    | nan => cases h2
    | inf t => cases h2
    | fin t b => cases h1
  | fin s a =>
    cases y with
    | nan => cases h2
    | inf t => exact F64.isFinite_signed_zero _
    | fin t b =>
      by_cases hb : b = 0
      · by_cases ha : a = 0
        · simp only [F64.div, hb, ha, if_true] at h2
          cases h2
        · simp only [F64.div, hb, ha, if_true, if_false] at h1
          cases h1
      · simp only [F64.div, hb, if_false] at h1 ⊢
        exact F64.isFinite_of_roundUnits (xor s t) (a * 2 ^ 1074) b h1

theorem F64.isFinite_neg (x : F64) (h : F64.isFinite x = true) :
    F64.isFinite (F64.neg x) = true := by
  cases x with
  | nan => cases h
  | inf s => cases h
  | fin s k => exact h

theorem parseDecimal_isFinite (s : List Char) (v : F64) (h : parseDecimal s = some v) :
    F64.isFinite v = true := by
  unfold parseDecimal at h
  simp only at h
  split at h
  · cases h
  · split at h
    · cases h
    · split at h
      · rename_i neg k heq
        cases h
        rw [F64.isFinite_fin]
        exact decide_eq_true (F64.roundUnits_isFinite _ _ _ _ _ heq)
      · cases h

/-- A literal that `ParseFloat` accepts is a finite double. -/
theorem parseFloat_isFinite (token : Token) (v : F64) (h : parseFloat token = some v) :
    F64.isFinite v = true := by
  unfold parseFloat at h
  split at h
  · exact parseDecimal_isFinite _ v h
  · rename_i rest
    cases hd : parseDecimal rest with
    | none => rw [hd] at h; cases h
    | some w =>
      rw [hd] at h
      cases h
      exact F64.isFinite_neg w (parseDecimal_isFinite rest w hd)
  · exact parseDecimal_isFinite _ v h

theorem finalCheck_inv (result r : F64)
    (h : (if (F64.isInf result || F64.isNaN result) = true then fail "numeric overflow"
      else Except.ok result : Result F64) = Except.ok r) :
    r = result ∧ (F64.isInf result || F64.isNaN result) = false := by
  by_cases hc : (F64.isInf result || F64.isNaN result) = true
  · rw [if_pos hc] at h
    cases h
  · rw [if_neg hc] at h
    cases h
    exact ⟨rfl, by simpa using hc⟩

/-- A reduction step that returns no error returns a finite double. -/
theorem applyOperator_isFinite (op : Token) (a b r : F64)
    (h : applyOperator op a b = Except.ok r) : F64.isFinite r = true := by
  unfold applyOperator at h
  simp only at h
  by_cases h1 : op = ['+']
  · rw [if_pos h1] at h
    obtain ⟨hr, hfin⟩ := finalCheck_inv _ _ h
    rw [hr]
    exact F64.isFinite_add a b hfin
  · rw [if_neg h1] at h
    by_cases h2 : op = ['-']
    · rw [if_pos h2] at h
      obtain ⟨hr, hfin⟩ := finalCheck_inv _ _ h
      rw [hr]
      exact F64.isFinite_add a (F64.neg b) hfin
    · rw [if_neg h2] at h
      by_cases h3 : op = ['*']
      · rw [if_pos h3] at h
        by_cases hc : (F64.lt F64.overflowLimit (F64.mul a b)
            || F64.lt (F64.mul a b) (F64.neg F64.overflowLimit)
            || !(F64.eq (F64.mul a b) (F64.mul a b))) = true
        · rw [if_pos hc] at h
          cases h
        · rw [if_neg hc] at h
          obtain ⟨hr, hfin⟩ := finalCheck_inv _ _ h
          rw [hr]
          exact F64.isFinite_mul a b hfin
      · rw [if_neg h3] at h
        by_cases h4 : op = ['/']
        · rw [if_pos h4] at h
          by_cases hc : F64.eq b F64.zero = true
          · rw [if_pos hc] at h
            cases h
          · rw [if_neg hc] at h
            obtain ⟨hr, hfin⟩ := finalCheck_inv _ _ h
            rw [hr]
            exact F64.isFinite_div a b hfin
        · rw [if_neg h4] at h
          obtain ⟨hr, _⟩ := finalCheck_inv _ _ h
          rw [hr]
          exact F64.isFinite_signed_zero false

theorem applyOperation_isFinite (numbers : List F64) (operators : List Token)
    (numbers1 : List F64) (operators1 : List Token)
    (h : applyOperation numbers operators = Except.ok (numbers1, operators1))
    (hfin : ∀ x ∈ numbers, F64.isFinite x = true) : ∀ x ∈ numbers1, F64.isFinite x = true := by
  unfold applyOperation at h
  split at h
  · rename_i b a numbersRest
    split at h
    · cases h
    · rename_i op operatorsRest
      split at h
      · cases h
      · rename_i result heq
        cases h
        intro x hx
        rcases List.mem_cons.mp hx with h1 | h1
        · rw [h1]
          exact applyOperator_isFinite op a b result heq
        · exact hfin x (List.mem_cons_of_mem _ (List.mem_cons_of_mem _ h1))
  · cases h

theorem reduceWhile_isFinite (cond : Token → Bool) (numbers : List F64)
    (operators : List Token) (numbers1 : List F64) (operators1 : List Token)
    (h : reduceWhile cond numbers operators = Except.ok (numbers1, operators1))
    (hfin : ∀ x ∈ numbers, F64.isFinite x = true) : ∀ x ∈ numbers1, F64.isFinite x = true := by
  induction operators generalizing numbers with
  | nil =>
    simp only [reduceWhile] at h
    cases h
    exact hfin
  | cons top rest ih =>
    simp only [reduceWhile] at h
    split at h
    · split at h
      · cases h
      · rename_i numbers2 operators2 heq
        exact ih _ h (applyOperation_isFinite _ _ _ _ heq hfin)
    · cases h
      exact hfin

theorem drainOperators_isFinite (numbers : List F64) (operators : List Token)
    (numbers1 : List F64) (operators1 : List Token)
    (h : drainOperators numbers operators = Except.ok (numbers1, operators1))
    (hfin : ∀ x ∈ numbers, F64.isFinite x = true) : ∀ x ∈ numbers1, F64.isFinite x = true := by
  induction operators generalizing numbers with
  | nil =>
    simp only [drainOperators] at h
    cases h
    exact hfin
  | cons top rest ih =>
    simp only [drainOperators, fail] at h
    split at h
    · cases h
    · split at h
      · cases h
      · rename_i numbers2 operators2 heq
        exact ih _ h (applyOperation_isFinite _ _ _ _ heq hfin)

/-- The operand stack holds finite doubles only. -/
theorem evaluateLoop_isFinite (tokens : List Token) (numbers : List F64)
    (operators : List Token) (numbers1 : List F64) (operators1 : List Token)
    (h : evaluateLoop tokens numbers operators = Except.ok (numbers1, operators1))
    (hfin : ∀ x ∈ numbers, F64.isFinite x = true) : ∀ x ∈ numbers1, F64.isFinite x = true := by
  induction tokens generalizing numbers operators with
  | nil =>
    simp only [evaluateLoop] at h
    cases h
    exact hfin
  | cons token rest ih =>
    simp only [evaluateLoop, fail] at h
    split at h
    · split at h
      · cases h
      · rename_i numbers2 operators2 heq
        exact ih _ _ h (reduceWhile_isFinite _ _ _ _ _ heq hfin)
    · split at h
      · exact ih _ _ h hfin
      · split at h
        · split at h
          · cases h
          · rename_i numbers2 operators2 heq
            split at h
            · cases h
            · split at h
              · cases h
              · exact ih _ _ h (reduceWhile_isFinite _ _ _ _ _ heq hfin)
        · split at h
          · cases h
          · rename_i num hparse
            refine ih _ _ h ?_
            intro x hx
            rcases List.mem_cons.mp hx with h1 | h1
            · rw [h1]
              exact parseFloat_isFinite token num hparse
            · exact hfin x h1

theorem evaluate_isFinite (tokens : List Token) (v : F64)
    (h : evaluate tokens = Except.ok v) : F64.isFinite v = true := by
  obtain ⟨numbers, operators, operators1, hloop, hdrain⟩ := evaluate_ok_inv tokens v h
  have h1 := evaluateLoop_isFinite tokens [] [] numbers operators hloop
    (by intro x hx; cases hx)
  exact drainOperators_isFinite numbers operators [v] operators1 hdrain h1 v
    (List.mem_singleton.mpr rfl)

/-- C12: a value that `Calc` returns is a finite double, neither NaN nor an
infinity. -/
theorem Calc_isFinite (T : UnicodeTables) (s : List Char) (v : F64)
    (h : Calc T s = Except.ok v) :
    F64.isFinite v = true ∧ v ≠ F64.nan ∧ v ≠ F64.inf false ∧ v ≠ F64.inf true := by
  obtain ⟨ts, first, last, _, _, _, _, _, _, hev⟩ := Calc_ok_inv T s v h
  have hfin := evaluate_isFinite ts v hev
  refine ⟨hfin, ?_, ?_, ?_⟩ <;> intro hv <;> rw [hv] at hfin <;> cases hfin

theorem Calc_isFinite_witness :
    F64.isFinite (F64.ofDecimal 875 2) = true ∧ F64.ofDecimal 875 2 ≠ F64.nan ∧
      F64.ofDecimal 875 2 ≠ F64.inf false ∧ F64.ofDecimal 875 2 ≠ F64.inf true :=
  Calc_isFinite latin1Tables "2.5 * (3 + 4) / 2".toList (F64.ofDecimal 875 2) (by decide!)

/-! ## Products that overflow -/

theorem F64.limit_lt_inf : F64.lt F64.overflowLimit (F64.inf false) = true := by decide!

theorem F64.neg_inf_lt_limit :
    F64.lt (F64.inf true) (F64.neg F64.overflowLimit) = true := by decide!

/-- An infinite or NaN product fails the comparisons of `applyOperation`. -/
theorem productCheck_of_not_finite (r : F64) (h : (F64.isInf r || F64.isNaN r) = true) :
    (F64.lt F64.overflowLimit r || F64.lt r (F64.neg F64.overflowLimit)
      || !(F64.eq r r)) = true := by
  cases r with
  | nan =>
    have e : F64.eq F64.nan F64.nan = false := rfl
    rw [e, Bool.not_false, Bool.or_true]
  | inf s =>
    cases s with
    | false => rw [F64.limit_lt_inf, Bool.true_or, Bool.true_or]
    | true => rw [F64.neg_inf_lt_limit, Bool.or_true, Bool.true_or]
  | fin s k => cases h

theorem applyOperator_product_overflow (a b : F64)
    (h : (F64.isInf (F64.mul a b) || F64.isNaN (F64.mul a b)) = true) :
    applyOperator ['*'] a b = fail "numeric overflow" := by
  unfold applyOperator
  simp only
  rw [if_pos trivial, if_pos (productCheck_of_not_finite _ h)]
  rfl

theorem applyOperation_product_overflow (a b : F64) (numbers : List F64)
    (operators : List Token)
    (h : (F64.isInf (F64.mul a b) || F64.isNaN (F64.mul a b)) = true) :
    applyOperation (b :: a :: numbers) (['*'] :: operators) = fail "numeric overflow" := by
  unfold applyOperation
  simp only
  rw [applyOperator_product_overflow a b h]
  rfl

/-- C14: the reduction step of `*` fails with "numeric overflow" when the
product is an infinity or NaN, and so does `Calc` on the product of two valid
literals, however it is laid out. -/
theorem Calc_product_overflow (T : UnicodeTables) :
    (∀ (a b : F64) (numbers : List F64) (operators : List Token),
      (F64.isInf (F64.mul a b) || F64.isNaN (F64.mul a b)) = true →
      applyOperation (b :: a :: numbers) (['*'] :: operators) = fail "numeric overflow") ∧
    (∀ (x y : List Char) (a b : F64) (items : List (List Char × Token))
      (trailing : List Char),
      isLiteralText x = true → parseFloat x = some a →
      isLiteralText y = true → parseFloat y = some b →
      (F64.isInf (F64.mul a b) || F64.isNaN (F64.mul a b)) = true →
      items.map Prod.snd = [x, ['*'], y] → isLayout items trailing = true →
      Calc T (spaced items ++ trailing) = fail "numeric overflow") := by
  constructor
  · intro a b numbers operators h
    exact applyOperation_product_overflow a b numbers operators h
  · intro x y a b items trailing hx hpx hy hpy h htokens hlay
    have halt : alternates false [x, ['*'], y] = true := by
      have hstar : isOperator ['*'] = true := by decide
      simp [alternates, hx, hy, hstar]
    have htok : tokenize T (spaced items ++ trailing) = Except.ok [x, ['*'], y] := by
      have h1 := tokenize_spaced T items trailing hlay false (by rw [htokens]; exact halt) []
      rw [htokens] at h1
      simpa [tokenize] using h1
    rw [Calc_of_tokens T _ [x, ['*'], y] x y htok rfl rfl, isOperator_literal x hx,
      isOperator_literal y hy, alternates_consecutive false _ halt]
    simp only [Bool.or_false, Bool.false_eq_true, if_false]
    have hloop : evaluateLoop [x, ['*'], y] [] [] = Except.ok ([b, a], [['*']]) := by
      rw [evaluateLoop_literal x hx a hpx]
      refine (evaluateLoop_operator BinOp.mul [y] [a] [] [a] [] rfl).trans ?_
      rw [evaluateLoop_literal y hy b hpy]
      rfl
    have hdrain : drainOperators [b, a] [['*']] = fail "numeric overflow" := by
      unfold drainOperators
      rw [if_neg (by decide), applyOperation_product_overflow a b [] [] h]
      rfl
    unfold evaluate
    rw [hloop]
    simp only
    rw [hdrain]
    rfl

theorem Calc_product_overflow_witness :
    applyOperation [F64.ofDecimal (10 ^ 200) 0, F64.ofDecimal (10 ^ 200) 0] [['*']]
        = fail "numeric overflow" ∧
      Calc latin1Tables
        (spaced [([], tenToThe200), ([' '], ['*']), ([' '], tenToThe200)] ++ [])
        = fail "numeric overflow" :=
  ⟨(Calc_product_overflow latin1Tables).1 (F64.ofDecimal (10 ^ 200) 0)
      (F64.ofDecimal (10 ^ 200) 0) [] [] (by decide!),
   (Calc_product_overflow latin1Tables).2 tenToThe200 tenToThe200
      (F64.ofDecimal (10 ^ 200) 0) (F64.ofDecimal (10 ^ 200) 0)
      [([], tenToThe200), ([' '], ['*']), ([' '], tenToThe200)] []
      (by decide!) (by decide!) (by decide!) (by decide!) (by decide!) (by decide!)
      (by decide!)⟩

/-! ## Literals without an operator between them -/

/-- The tokenizer returns the literals of a text in which white space
separates them. -/
theorem tokenize_literals (T : UnicodeTables) (items : List (List Char × Token))
    (trailing : List Char) (hlit : ∀ item ∈ items, isLiteralText item.2 = true)
    (hlay : isLayout items trailing = true) (hsep : ∀ item ∈ items.tail, item.1 ≠ [])
    (tokens : List Token) :
    tokenizeLoop T (spaced items ++ trailing) tokens [] false =
      Except.ok (tokens ++ items.map Prod.snd) := by
  induction items generalizing tokens with
  | nil =>
    simp only [isLayout, List.all_nil, Bool.true_and, List.all_eq_true] at hlay
    simpa [spaced] using tokenizeLoop_spaces T trailing hlay tokens false
  | cons item rest ih =>
    obtain ⟨gap, z⟩ := item
    obtain ⟨hgap, hrest⟩ := isLayout_cons gap z rest trailing hlay
    have hz : isLiteralText z = true := hlit (gap, z) (List.mem_cons_self _ _)
    obtain ⟨hne, hall, hcount⟩ := isLiteralText_inv z hz
    have hclean : startsClean T (spaced rest ++ trailing) = true := by
      cases rest with
      | nil =>
        simp only [isLayout, List.all_nil, Bool.true_and, List.all_eq_true] at hrest
        have h := startsClean_of_spaces T trailing [] hrest rfl
        simpa [spaced] using h
      | cons item2 rest2 =>
        obtain ⟨gap2, z2⟩ := item2
        obtain ⟨hgap2, _⟩ := isLayout_cons gap2 z2 rest2 trailing hrest
        have hne2 : gap2 ≠ [] := hsep (gap2, z2) (List.mem_cons_self _ _)
        cases gap2 with
        | nil => exact absurd rfl hne2
        | cons c r => simp [spaced, startsClean, hgap2 c (List.mem_cons_self _ _)]
    simp only [spaced, List.append_assoc, List.map_cons]
    rw [tokenizeLoop_skip_spaces T gap hgap,
      tokenizeLoop_literal_then T z (spaced rest ++ trailing) tokens [] false hall
        (by simpa using hcount) (by simpa using hne) hclean,
      ih (fun item hmem => hlit item (List.mem_cons_of_mem _ hmem)) hrest
        (fun item hmem => hsep item (List.mem_of_mem_tail hmem))]
    simp

/-- The main loop pushes the values of a run of literals. -/
theorem evaluateLoop_literals (zs : List Token)
    (hlit : ∀ z ∈ zs, isLiteralText z = true ∧ (parseFloat z).isSome = true)
    (numbers : List F64) (operators : List Token) :
    ∃ vs : List F64, vs.length = zs.length ∧
      evaluateLoop zs numbers operators = Except.ok (vs ++ numbers, operators) := by
  induction zs generalizing numbers with
  | nil => exact ⟨[], rfl, rfl⟩
  | cons z rest ih =>
    obtain ⟨hz, hparse⟩ := hlit z (List.mem_cons_self _ _)
    obtain ⟨v, hv⟩ := Option.isSome_iff_exists.mp hparse
    obtain ⟨vs, hlen, hloop⟩ := ih (fun y hy => hlit y (List.mem_cons_of_mem _ hy))
      (v :: numbers)
    refine ⟨vs ++ [v], by simp [hlen], ?_⟩
    rw [evaluateLoop_literal z hz v hv, hloop]
    simp

theorem consecutiveOperators_of_no_operator (ts : List Token)
    (h : ∀ t ∈ ts, isOperator t = false) : consecutiveOperators ts = false := by
  induction ts with
  | nil => rfl
  | cons t rest ih =>
    rw [consecutiveOperators_cons t rest (h t (List.mem_cons_self _ _))]
    exact ih (fun y hy => h y (List.mem_cons_of_mem _ hy))

/-- C11: two or more valid numeric literals separated by white space only
make `Calc` fail with "invalid expression". -/
theorem Calc_missing_operator (T : UnicodeTables) (items : List (List Char × Token))
    (trailing : List Char) (hlen : 2 ≤ items.length)
    (hlit : ∀ item ∈ items,
      isLiteralText item.2 = true ∧ (parseFloat item.2).isSome = true)
    (hlay : isLayout items trailing = true) (hsep : ∀ item ∈ items.tail, item.1 ≠ []) :
    Calc T (spaced items ++ trailing) = fail "invalid expression" := by
  have hlits : ∀ z ∈ items.map Prod.snd,
      isLiteralText z = true ∧ (parseFloat z).isSome = true := by
    intro z hz
    obtain ⟨item, hmem, hitem⟩ := List.mem_map.mp hz
    rw [← hitem]
    exact hlit item hmem
  have hnoop : ∀ z ∈ items.map Prod.snd, isOperator z = false :=
    fun z hz => isOperator_literal z (hlits z hz).1
  have htok : tokenize T (spaced items ++ trailing) = Except.ok (items.map Prod.snd) := by
    have h := tokenize_literals T items trailing (fun item hmem => (hlit item hmem).1) hlay
      hsep []
    simpa [tokenize] using h
  obtain ⟨first, hfirst⟩ : ∃ first, (items.map Prod.snd).head? = some first := by
    cases items with
    | nil => simp at hlen
    | cons item rest => exact ⟨item.2, rfl⟩
  obtain ⟨last, hlast⟩ := getLast?_isSome_of_head? _ first hfirst
  have hf : isOperator first = false := hnoop first (List.mem_of_mem_head? hfirst)
  have hl : isOperator last = false := hnoop last (List.mem_of_mem_getLast? hlast)
  rw [Calc_of_tokens T _ _ first last htok hfirst hlast, hf, hl,
    consecutiveOperators_of_no_operator _ hnoop]
  simp only [Bool.or_false, Bool.false_eq_true, if_false]
  obtain ⟨vs, hvs, hloop⟩ := evaluateLoop_literals (items.map Prod.snd) hlits [] []
  rw [List.length_map] at hvs
  unfold evaluate
  rw [hloop]
  simp only [List.append_nil, drainOperators]
  cases vs with
  | nil => simp at hvs; omega
  | cons v1 rest1 =>
    cases rest1 with
    | nil => simp at hvs; omega
    | cons v2 rest2 => rfl

theorem Calc_missing_operator_witness :
    Calc latin1Tables (spaced [([], ['2']), ([' ', ' '], ['3']), (['\t'], "4.5".toList)]
      ++ [' ']) = fail "invalid expression" :=
  Calc_missing_operator latin1Tables
    [([], ['2']), ([' ', ' '], ['3']), (['\t'], "4.5".toList)] [' '] (by decide)
    (by decide!) (by decide) (by decide)

/-! ## White space separates tokens -/

/-- A white space rune ends the token before it; the tokenizer goes on from
a fresh state. -/
theorem tokenizeLoop_append_space (T : UnicodeTables) (c : Char) (hsp : isSpace c = true)
    (s t : List Char) (tokens : List Token) (cur : List Char) (dp : Bool)
    (hstate : cur = [] → dp = false) :
    tokenizeLoop T (s ++ c :: t) tokens cur dp =
      match tokenizeLoop T s tokens cur dp with
      | Except.error e => Except.error e
      | Except.ok ts => tokenizeLoop T t ts [] false := by
  induction s generalizing tokens cur dp with
  | nil =>
    simp only [List.nil_append, tokenizeLoop, hsp]
    by_cases hcur : cur.length > 0
    · simp [hcur]
    · have hnil : cur = [] := List.length_eq_zero.mp (by omega)
      simp [hnil, hstate hnil]
  | cons d rest ih =>
    simp only [List.cons_append, tokenizeLoop, fail]
    split
    · split
      · exact ih _ _ _ (fun _ => rfl)
      · exact ih _ _ _ hstate
    · split
      · exact ih _ _ _ (fun hx => absurd hx (by simp))
      · split
        · split
          · rfl
          · exact ih _ _ _ (fun hx => absurd hx (by simp))
        · split
          · rfl
          · split
            · exact ih _ _ _ (fun _ => rfl)
            · exact ih _ _ _ hstate

/-- The tokens of two texts with white space between them. -/
theorem tokenize_append_spaces (T : UnicodeTables) (s w t : List Char) (hw : w ≠ [])
    (hsp : ∀ c ∈ w, isSpace c = true) :
    tokenize T (s ++ w ++ t) =
      match tokenize T s with
      | Except.error e => Except.error e
      | Except.ok ts =>
        match tokenize T t with
        | Except.error e => Except.error e
        | Except.ok tt => Except.ok (ts ++ tt) := by
  cases w with
  | nil => exact absurd rfl hw
  | cons c r =>
    have h1 : s ++ c :: r ++ t = s ++ c :: (r ++ t) := by simp
    unfold tokenize
    rw [h1, tokenizeLoop_append_space T c (hsp c (List.mem_cons_self _ _)) s (r ++ t) [] []
      false (fun _ => rfl)]
    cases hs : tokenizeLoop T s [] [] false with
    | error e => rfl
    | ok ts =>
      simp only
      rw [tokenizeLoop_skip_spaces T r (fun d hd => hsp d (List.mem_cons_of_mem _ hd)),
        tokenizeLoop_tokens]

/-- C17: with a non-empty run of white space between two texts, the
tokenizer succeeds exactly when it succeeds on both, and then returns the
tokens of the first followed by the tokens of the second. -/
theorem tokenize_whitespace_separates (T : UnicodeTables) (s w t : List Char) (hw : w ≠ [])
    (hsp : ∀ c ∈ w, isSpace c = true) :
    ((∃ r, tokenize T (s ++ w ++ t) = Except.ok r) ↔
      ((∃ ts, tokenize T s = Except.ok ts) ∧ (∃ tt, tokenize T t = Except.ok tt))) ∧
    (∀ ts tt, tokenize T s = Except.ok ts → tokenize T t = Except.ok tt →
      tokenize T (s ++ w ++ t) = Except.ok (ts ++ tt)) := by
  have h := tokenize_append_spaces T s w t hw hsp
  constructor
  · constructor
    · rintro ⟨r, hr⟩
      rw [h] at hr
      cases hs : tokenize T s with
      | error e => rw [hs] at hr; cases hr
      | ok ts =>
        cases ht : tokenize T t with
        | error e => rw [hs, ht] at hr; cases hr
        | ok tt => exact ⟨⟨ts, rfl⟩, ⟨tt, rfl⟩⟩
    · rintro ⟨⟨ts, hs⟩, ⟨tt, ht⟩⟩
      exact ⟨ts ++ tt, by rw [h, hs, ht]⟩
  · intro ts tt hs ht
    rw [h, hs, ht]

theorem tokenize_whitespace_separates_witness :
    tokenize latin1Tables ("1.5".toList ++ [' '] ++ "2.5".toList) =
      Except.ok ([['1', '.', '5']] ++ [['2', '.', '5']]) :=
  (tokenize_whitespace_separates latin1Tables "1.5".toList [' '] "2.5".toList (by decide)
    (by decide)).2 [['1', '.', '5']] [['2', '.', '5']] (by decide) (by decide)

/-! ## The tokens keep the runes -/

theorem tokenizeLoop_flatten (T : UnicodeTables) (s : List Char) (tokens : List Token)
    (cur : List Char) (dp : Bool) (ts : List Token)
    (h : tokenizeLoop T s tokens cur dp = Except.ok ts) :
    ts.flatten = tokens.flatten ++ cur ++ s.filter (fun c => !isSpace c) := by
  induction s generalizing tokens cur dp with
  | nil =>
    simp only [tokenizeLoop] at h
    split at h
    · cases h
      simp
    · rename_i hcur
      cases h
      have hnil : cur = [] := List.length_eq_zero.mp (by omega)
      simp [hnil]
  | cons c rest ih =>
    simp only [tokenizeLoop, fail] at h
    split at h
    · rename_i hsp
      split at h
      · rw [ih _ _ _ h]
        simp [hsp]
      · rw [ih _ _ _ h]
        simp [hsp]
    · rename_i hsp
      split at h
      · rw [ih _ _ _ h]
        simp [hsp]
      · split at h
        · split at h
          · cases h
          · rw [ih _ _ _ h]
            simp [hsp]
        · split at h
          · cases h
          · split at h
            · rw [ih _ _ _ h]
              simp [hsp]
            · rename_i hcur
              have hnil : cur = [] := List.length_eq_zero.mp (by omega)
              rw [ih _ _ _ h]
              simp [hsp, hnil]

theorem tokenizeLoop_ne_empty (T : UnicodeTables) (s : List Char) (tokens : List Token)
    (cur : List Char) (dp : Bool) (ts : List Token)
    (h : tokenizeLoop T s tokens cur dp = Except.ok ts)
    (htok : ∀ t ∈ tokens, t ≠ []) : ∀ t ∈ ts, t ≠ [] := by
  induction s generalizing tokens cur dp with
  | nil =>
    simp only [tokenizeLoop] at h
    split at h
    · rename_i hcur
      cases h
      intro t ht
      rcases List.mem_append.mp ht with h1 | h1
      · exact htok t h1
      · rw [List.mem_singleton.mp h1]
        intro hnil
        rw [hnil] at hcur
        simp at hcur
    · cases h
      exact htok
  | cons c rest ih =>
    have hflush : cur.length > 0 → ∀ t ∈ tokens ++ [cur], t ≠ [] := by
      intro hcur t ht
      rcases List.mem_append.mp ht with h1 | h1
      · exact htok t h1
      · rw [List.mem_singleton.mp h1]
        intro hnil
        rw [hnil] at hcur
        simp at hcur
    simp only [tokenizeLoop, fail] at h
    split at h
    · split at h
      · rename_i hcur
        exact ih _ _ _ h (hflush hcur)
      · exact ih _ _ _ h htok
    · split at h
      · exact ih _ _ _ h htok
      · split at h
        · split at h
          · cases h
          · exact ih _ _ _ h htok
        · split at h
          · cases h
          · split at h
            · rename_i hcur
              refine ih _ _ _ h ?_
              intro t ht
              rcases List.mem_append.mp ht with h1 | h1
              · exact hflush hcur t h1
              · rw [List.mem_singleton.mp h1]
                simp
            · refine ih _ _ _ h ?_
              intro t ht
              rcases List.mem_append.mp ht with h1 | h1
              · exact htok t h1
              · rw [List.mem_singleton.mp h1]
                simp

/-- C19: the tokens that `tokenize` returns, put together in order, are the
input without its white space, and none of them is empty. -/
theorem tokenize_keeps_runes (T : UnicodeTables) (s : List Char) (ts : List Token)
    (h : tokenize T s = Except.ok ts) :
    ts.flatten = s.filter (fun c => !isSpace c) ∧ ∀ t ∈ ts, t ≠ [] := by
  constructor
  · have h1 := tokenizeLoop_flatten T s [] [] false ts h
    simpa using h1
  · exact tokenizeLoop_ne_empty T s [] [] false ts h (by simp)

theorem tokenize_keeps_runes_witness :
    ([['2', '.', '5'], ['*'], ['('], ['3'], ['+'], ['4'], [')']] : List Token).flatten =
        " 2.5 *(3 + 4) ".toList.filter (fun c => !isSpace c) ∧
      ∀ t ∈ ([['2', '.', '5'], ['*'], ['('], ['3'], ['+'], ['4'], [')']] : List Token),
        t ≠ [] :=
  tokenize_keeps_runes latin1Tables " 2.5 *(3 + 4) ".toList
    [['2', '.', '5'], ['*'], ['('], ['3'], ['+'], ['4'], [')']] (by decide)

/-! ## "mismatched parentheses" only on unbalanced input -/

theorem reduceWhile_not_mismatched (cond : Token → Bool) (numbers : List F64)
    (operators : List Token) :
    reduceWhile cond numbers operators ≠ fail "mismatched parentheses" := by
  intro h
  rcases reduceWhile_fault cond numbers operators _ h with h1 | h1 | h1 <;>
    exact absurd h1 (by decide)

/-- A reduction loop stops on an operator that fails its condition. -/
theorem reduceWhile_head (cond : Token → Bool) (numbers : List F64) (operators : List Token)
    (numbers1 : List F64) (top : Token) (rest : List Token)
    (h : reduceWhile cond numbers operators = Except.ok (numbers1, top :: rest)) :
    cond top = false := by
  induction operators generalizing numbers with
  | nil =>
    simp only [reduceWhile] at h
    cases h
  | cons t r ih =>
    simp only [reduceWhile] at h
    split at h
    · split at h
      · cases h
      · exact ih _ h
    · rename_i hc
      cases h
      simpa using hc

theorem drainOperators_mismatched (numbers : List F64) (operators : List Token)
    (h : drainOperators numbers operators = fail "mismatched parentheses") :
    0 < List.count ['('] operators := by
  induction operators generalizing numbers with
  | nil => cases h
  | cons top rest ih =>
    simp only [drainOperators, fail] at h
    split at h
    · rename_i htop
      rw [htop, List.count_cons_self]
      omega
    · split at h
      · rename_i e heq
        cases h
        rcases applyOperation_fault _ _ _ _ heq with h1 | h1 | h1 <;>
          exact absurd h1 (by decide)
      · have h1 := ih _ h
        rw [List.count_cons]
        omega

/-- The main loop reports "mismatched parentheses" only at a `)` that has no
open parenthesis before it. -/
theorem evaluateLoop_mismatched (tokens : List Token) (numbers : List F64)
    (operators : List Token)
    (h : evaluateLoop tokens numbers operators = fail "mismatched parentheses") :
    parenDepth (List.count ['('] operators) tokens = none := by
  induction tokens generalizing numbers operators with
  | nil => cases h
  | cons token rest ih =>
    simp only [evaluateLoop, fail] at h
    simp only [parenDepth]
    split at h
    · rename_i hop
      have h1 : token ≠ ['('] := by
        rcases hop with hop | hop | hop | hop <;> subst hop <;> decide
      have h2 : token ≠ [')'] := by
        rcases hop with hop | hop | hop | hop <;> subst hop <;> decide
      rw [if_neg h1, if_neg h2]
      split at h
      · rename_i e heq
        cases h
        exact absurd heq (reduceWhile_not_mismatched _ _ _)
      · rename_i numbers2 operators2 heq
        have hcount := reduceWhile_count _ (by
          intro t ht
          intro ht
          subst ht
          rcases hop with hop | hop | hop | hop <;> subst hop <;> revert ht <;> decide)
          _ _ _ _ heq
        have h3 := ih _ _ h
        rw [List.count_cons_of_ne (Ne.symm h1), hcount] at h3
        exact h3
    · split at h
      · rename_i hopen
        rw [if_pos hopen]
        have h3 := ih _ _ h
        rw [hopen, List.count_cons_self] at h3
        exact h3
      · rename_i hopen
        rw [if_neg hopen]
        split at h
        · rename_i hclose
          rw [if_pos hclose]
          split at h
          · rename_i e heq
            cases h
            exact absurd heq (reduceWhile_not_mismatched _ _ _)
          · rename_i numbers2 operators2 heq
            have hcount := reduceWhile_count _ (by
              intro t ht
              simpa using ht) _ _ _ _ heq
            split at h
            · rw [← hcount]
              simp
            · rename_i top operators3
              have htop : top = ['('] := by
                have := reduceWhile_head _ _ _ _ _ _ heq
                simpa using this
              subst htop
              rw [if_neg (by simp)] at h
              rw [List.count_cons_self] at hcount
              have h3 := ih _ _ h
              rw [← hcount]
              simp only [Nat.add_one_ne_zero, if_false, Nat.add_sub_cancel]
              exact h3
        · rename_i hclose
          rw [if_neg hclose]
          split at h
          · injection h with h
            injection h with h
            have h2 := congrArg (fun t => t.data.head?) h
            simp only [String.data_append] at h2
            simp at h2
          · exact ih _ _ h

theorem evaluate_mismatched (tokens : List Token)
    (h : evaluate tokens = fail "mismatched parentheses") : balanced tokens = false := by
  unfold evaluate at h
  simp only [fail] at h
  split at h
  · rename_i e heq
    cases h
    have h1 := evaluateLoop_mismatched tokens [] [] heq
    simp only [balanced, List.count_nil] at h1 ⊢
    rw [h1]
    rfl
  · rename_i numbers operators hloop
    split at h
    · rename_i e heq
      cases h
      have h1 := drainOperators_mismatched numbers operators heq
      have h2 := evaluateLoop_parenDepth tokens [] [] numbers operators hloop
      simp only [balanced, List.count_nil] at h2 ⊢
      rw [h2]
      simp
      omega
    · split at h
      · cases h
      · exact absurd h (by decide)

/-- C20: `Calc` reports "mismatched parentheses" only on a token sequence with
unbalanced parentheses, so never on a balanced one; as long as the main loop
does not fail, the open parentheses on the operator stack count the nesting
depth of the tokens read. -/
theorem Calc_mismatched_only_unbalanced (T : UnicodeTables) (s : List Char) :
    (Calc T s = fail "mismatched parentheses" →
      ∃ ts, tokenize T s = Except.ok ts ∧ balanced ts = false) ∧
    (∀ ts, tokenize T s = Except.ok ts → balanced ts = true →
      Calc T s ≠ fail "mismatched parentheses") ∧
    (∀ (tokens : List Token) (numbers : List F64) (operators : List Token)
      (numbers1 : List F64) (operators1 : List Token),
      evaluateLoop tokens numbers operators = Except.ok (numbers1, operators1) →
      parenDepth (List.count ['('] operators) tokens = some (List.count ['('] operators1)) := by
  have hmain : Calc T s = fail "mismatched parentheses" →
      ∃ ts, tokenize T s = Except.ok ts ∧ balanced ts = false := by
    intro h
    unfold Calc at h
    simp only [fail] at h
    split at h
    · exact absurd h (by decide)
    · split at h
      · rename_i e heq
        have he := tokenizeLoop_fault T s [] [] false e heq
        subst he
        exact absurd h (by decide)
      · rename_i ts hts
        split at h
        · split at h
          · exact absurd h (by decide)
          · split at h
            · exact absurd h (by decide)
            · exact ⟨ts, hts, evaluate_mismatched ts h⟩
        · cases h
  refine ⟨hmain, ?_, ?_⟩
  · intro ts hts hbal h
    obtain ⟨ts1, hts1, hunb⟩ := hmain h
    rw [hts] at hts1
    cases hts1
    rw [hbal] at hunb
    cases hunb
  · intro tokens numbers operators numbers1 operators1 h
    exact evaluateLoop_parenDepth tokens numbers operators numbers1 operators1 h

theorem Calc_mismatched_only_unbalanced_witness :
    (∃ ts, tokenize latin1Tables "(2 + 3".toList = Except.ok ts ∧ balanced ts = false) ∧
      Calc latin1Tables "(2 + 3) * 4".toList ≠ fail "mismatched parentheses" :=
  ⟨(Calc_mismatched_only_unbalanced latin1Tables "(2 + 3".toList).1 (by decide!),
   (Calc_mismatched_only_unbalanced latin1Tables "(2 + 3) * 4".toList).2.1
    [['('], ['2'], ['+'], ['3'], [')'], ['*'], ['4']] (by decide) (by decide)⟩

/-! ## The answer to an invalid token -/

/-- The error of a failed numeric parse is none of the texts that
`HandleCalculate` knows. -/
theorem respondToError_parse (token : Token) :
    respondToError ("invalid token: " ++ String.mk token) =
      { status := 500, error := "Internal server error", result := none } := by
  have h1 : ("invalid token: " ++ String.mk token) ≠ "empty expression" := by
    intro h
    have h2 := congrArg (fun t => t.data.head?) h
    simp only [String.data_append] at h2
    simp at h2
  have h2 : ("invalid token: " ++ String.mk token) ≠ "division by zero" := by
    intro h
    have h2 := congrArg (fun t => t.data.head?) h
    simp only [String.data_append] at h2
    simp at h2
  have h3 : ("invalid token: " ++ String.mk token) ≠
      "invalid expression: consecutive operators" := by
    intro h
    have h2 := congrArg (fun t => t.data[8]?) h
    simp only [String.data_append] at h2
    simp at h2
  have h4 : ("invalid token: " ++ String.mk token) ≠ "mismatched parentheses" := by
    intro h
    have h2 := congrArg (fun t => t.data.head?) h
    simp only [String.data_append] at h2
    simp at h2
  have h5 : ("invalid token: " ++ String.mk token) ≠ "invalid token" := by
    intro h
    have h2 := congrArg (fun t => t.data[13]?) h
    simp only [String.data_append] at h2
    simp at h2
  have h6 : ("invalid token: " ++ String.mk token) ≠ "invalid expression" := by
    intro h
    have h2 := congrArg (fun t => t.data[8]?) h
    simp only [String.data_append] at h2
    simp at h2
  unfold respondToError
  rw [if_neg h1, if_neg h2, if_neg h3, if_neg h4, if_neg (by
    intro h
    rcases h with h | h
    · exact h5 h
    · exact h6 h)]
  rfl

theorem Calc_fails_on_letter (T : UnicodeTables) (s : List Char)
    (h : ∃ c ∈ s, isLetter T c = true) : Calc T s = fail "invalid token" := by
  obtain ⟨c, hmem, hc⟩ := h
  have htrim : trimSpace s ≠ [] := by
    intro ht
    have hsp := (trimSpace_eq_nil_iff s).mp ht c hmem
    rw [isLetter_not_space T c hc] at hsp
    exact absurd hsp (by decide)
  obtain ⟨pre, post, hs⟩ := List.append_of_mem hmem
  have htok : tokenize T s = fail "invalid token" := by
    rw [hs]
    exact tokenizeLoop_append_fail T (c :: post) (tokenizeLoop_letter T c hc post) pre [] [] false
  unfold Calc
  rw [if_neg htrim, htok]
  rfl

/-- C15: when `evaluate` reaches a token that is no operator, no parenthesis
and no number, `Calc` fails with "invalid token: " followed by the token and
`HandleCalculate` answers 500 "Internal server error"; on an expression with a
letter `Calc` fails with "invalid token" and the answer is 422 "Expression is
not valid". -/
theorem HandleCalculate_invalid_token (T : UnicodeTables) :
    (∀ (s : List Char) (pre : List Token) (token : Token) (post : List Token)
      (first last : Token) (numbers : List F64) (operators : List Token),
      tokenize T s = Except.ok (pre ++ token :: post) →
      (pre ++ token :: post).head? = some first →
      (pre ++ token :: post).getLast? = some last →
      isOperator first = false → isOperator last = false →
      consecutiveOperators (pre ++ token :: post) = false →
      evaluateLoop pre [] [] = Except.ok (numbers, operators) →
      isOperator token = false → token ≠ ['('] → token ≠ [')'] → parseFloat token = none →
      Calc T s = Except.error (Fault.error ("invalid token: " ++ String.mk token)) ∧
        HandleCalculate T s =
          some { status := 500, error := "Internal server error", result := none }) ∧
    (∀ s : List Char, (∃ c ∈ s, isLetter T c = true) →
      Calc T s = Except.error (Fault.error "invalid token") ∧
        HandleCalculate T s =
          some { status := 422, error := "Expression is not valid", result := none }) := by
  constructor
  · intro s pre token post first last numbers operators htok hfirst hlast hf hl hc hloop hop
      hopen hclose hparse
    have hcalc : Calc T s = fail ("invalid token: " ++ String.mk token) := by
      rw [Calc_of_tokens T s _ first last htok hfirst hlast, hf, hl, hc]
      simp only [Bool.or_false, Bool.false_eq_true, if_false]
      have hnot : ¬ (token = ['+'] ∨ token = ['-'] ∨ token = ['*'] ∨ token = ['/']) := by
        intro h
        have hop1 : isOperator token = true := by
          rcases h with h | h | h | h <;> subst h <;> decide
        rw [hop1] at hop
        cases hop
      have hstep : evaluateLoop (token :: post) numbers operators =
          fail ("invalid token: " ++ String.mk token) := by
        simp only [evaluateLoop]
        rw [if_neg hnot, if_neg hopen, if_neg hclose, hparse]
      unfold evaluate
      rw [evaluateLoop_append, hloop]
      simp only
      rw [hstep]
      rfl
    refine ⟨hcalc, ?_⟩
    have hne : s ≠ [] := by
      intro hnil
      subst hnil
      have h1 : tokenize T [] = Except.ok [] := rfl
      rw [h1] at htok
      injection htok with htok
      cases pre <;> cases htok
    unfold HandleCalculate
    rw [if_neg hne, hcalc]
    simp only [fail]
    rw [respondToError_parse]
  · intro s hs
    have hcalc := Calc_fails_on_letter T s hs
    refine ⟨hcalc, ?_⟩
    have hne : s ≠ [] := by
      intro hnil
      subst hnil
      obtain ⟨c, hc, _⟩ := hs
      cases hc
    unfold HandleCalculate
    rw [if_neg hne, hcalc]
    rfl

theorem HandleCalculate_invalid_token_witness :
    (Calc latin1Tables "1,7976931348623157 * 2".toList =
        Except.error (Fault.error "invalid token: ,") ∧
      HandleCalculate latin1Tables "1,7976931348623157 * 2".toList =
        some { status := 500, error := "Internal server error", result := none }) ∧
    (Calc latin1Tables ['.'] = Except.error (Fault.error "invalid token: .") ∧
      HandleCalculate latin1Tables ['.'] =
        some { status := 500, error := "Internal server error", result := none }) ∧
    (Calc latin1Tables "2 + a".toList = Except.error (Fault.error "invalid token") ∧
      HandleCalculate latin1Tables "2 + a".toList =
        some { status := 422, error := "Expression is not valid", result := none }) :=
  ⟨(HandleCalculate_invalid_token latin1Tables).1 "1,7976931348623157 * 2".toList
      [['1']] [','] ["7976931348623157".toList, ['*'], ['2']] ['1'] ['2']
      [F64.ofDecimal 1 0] [] (by decide) (by decide) (by decide) (by decide) (by decide)
      (by decide) (by decide!) (by decide) (by decide) (by decide) (by decide),
   (HandleCalculate_invalid_token latin1Tables).1 ['.'] [] ['.'] [] ['.'] ['.'] [] []
      (by decide) (by decide) (by decide) (by decide) (by decide) (by decide) (by decide)
      (by decide) (by decide) (by decide) (by decide),
   (HandleCalculate_invalid_token latin1Tables).2 "2 + a".toList (by decide)⟩

end CalcGo
